import Mathlib

/-!
Verification of the grammarinator-cxx tree engine.

A shallow embedding, in Lean 4, of the parts of the grammarinator-cxx
repository that the verified claims are about:

* `RuleSize` arithmetic and the generation context stack
  (`libgrammarinator/include/grammarinator/runtime/Generator.hpp`),
* `DefaultModel::choice` (`runtime/DefaultModel.hpp`),
* `Tool::memoize_test`, `Tool::create_tree`, `Tool::swap_local_nodes`
  (`tool/Tool.hpp`),
* `SubTreePopulation::select_by_type` (`tool/SubTreePopulation.hpp`),
* `Rule::replace` / `Rule::remove` (`runtime/Rule.hpp`),
* the FlatBuffers tree codec (`tool/FlatBuffersTreeCodec.hpp`),
* the delta-debugging trimmers (`libgrafl/trimmer.hpp`).

C++ `int` values are modelled as `Int` (no C++ computation relevant to the
claims overflows 32 bits except where noted, in which case the wraparound is
made explicit).  Floating point weights are modelled as `ℚ`; the only weight
operations relevant to the claims are additions, comparisons with zero and
order comparisons, all of which are exact.  The uniform random source (an
external collaborator in the design) is passed in as an explicit parameter.
-/

namespace Grammarinator

/-- `runtime::RuleSize`: the two-axis size measure `(depth, tokens)`.
Fields are C++ `int`. -/
structure RuleSize where
  depth : Int
  tokens : Int
deriving DecidableEq, Repr

/-- `std::numeric_limits<int>::max()`. -/
def intMax : Int := 2147483647

namespace RuleSize

/-- `RuleSize::max()`. -/
def max : RuleSize := ⟨intMax, intMax⟩

/-- Componentwise `operator+`. -/
def add (a b : RuleSize) : RuleSize := ⟨a.depth + b.depth, a.tokens + b.tokens⟩

instance instAdd : Add RuleSize := ⟨add⟩

/-- Componentwise `operator-`. -/
def sub (a b : RuleSize) : RuleSize := ⟨a.depth - b.depth, a.tokens - b.tokens⟩

instance instSub : Sub RuleSize := ⟨sub⟩

/-- `operator<=`: the componentwise (vector) partial order. -/
def le (a b : RuleSize) : Prop := a.depth ≤ b.depth ∧ a.tokens ≤ b.tokens

instance instLE : LE RuleSize := ⟨le⟩

instance : DecidableRel (α := RuleSize) (· ≤ ·) := fun a b =>
  inferInstanceAs (Decidable (a.depth ≤ b.depth ∧ a.tokens ≤ b.tokens))

theorem add_def (a b : RuleSize) : a + b = ⟨a.depth + b.depth, a.tokens + b.tokens⟩ := rfl

theorem sub_def (a b : RuleSize) : a - b = ⟨a.depth - b.depth, a.tokens - b.tokens⟩ := rfl

theorem le_def (a b : RuleSize) : (a ≤ b) = (a.depth ≤ b.depth ∧ a.tokens ≤ b.tokens) := rfl

end RuleSize

/-! ## Generator state and the context stack (`runtime/Generator.hpp`)

A `Generator` owns `_size` (current accumulated cost) and `_limit` (the cap).
The model and the listener list do not participate in the size bookkeeping, so
the state carries just the two `RuleSize` fields. -/

/-- The size-relevant state of `runtime::Generator`: `_size` and `_limit`. -/
structure GenState where
  size : RuleSize
  limit : RuleSize
deriving DecidableEq, Repr

/-! ### `QuantifierContext` (Generator.hpp, lines 291–325) -/

/-- One repetition query, `QuantifierContext::operator()`.
Inputs are the context's `cnt`, `start`, `stop`, `min_size` fields, the
generator state at the moment of the query, and the value that
`Model::quantify` would return if consulted (the model is a policy object
injected from outside; its verdict is an input here).  Returns the boolean
answer together with the updated `cnt`. -/
def quantifierNext (cnt start stop : Int) (min_size : RuleSize) (st : GenState)
    (quantifyVerdict : Bool) : Bool × Int :=
  if cnt < start then
    (true, cnt + 1)
  else if cnt < stop ∧ st.size + min_size ≤ st.limit ∧ quantifyVerdict then
    (true, cnt + 1)
  else
    (false, cnt)

/-! ### `AlternationContext` (Generator.hpp, lines 224–289)

The constructor runs: add `reserve` to `_size.tokens`; compute the feasibility
weights; if their sum is zero, pick the lexicographically (depth, then tokens)
smallest `min_size` among alternatives with positive condition, raise
`_limit.depth` and/or `_limit.tokens` to `_size + min_size` where exceeded,
and recompute the weights.  `orig_depth_limit` is captured from
`_limit.depth` in the member initializer list, i.e. before any of this.
The destructor runs: `_limit.depth = orig_depth_limit;`
`_size.tokens -= reserve;` — and nothing else. -/

/-- The data an `AlternationContext` keeps for its destructor. -/
structure AltCtx where
  origDepthLimit : Int
  reserve : Int
deriving DecidableEq, Repr

/-- Feasibility weights: `conditions[i]` if `_size + min_sizes[i] <= _limit`
else `0` (constructor loop over `conditions`). -/
def altWeights (st : GenState) (min_sizes : List RuleSize) (conditions : List ℚ) : List ℚ :=
  (List.zip conditions min_sizes).map
    (fun cm => if st.size + cm.2 ≤ st.limit then cm.1 else 0)

/-- The lexicographically smallest `min_size` (depth first, then tokens) among
alternatives whose condition is positive, starting from `RuleSize::max()`
(constructor loop in the `wsum == 0` branch). -/
def altMinSize (min_sizes : List RuleSize) (conditions : List ℚ) : RuleSize :=
  (List.zip conditions min_sizes).foldl
    (fun acc cm =>
      if 0 < cm.1 ∧ (cm.2.depth < acc.depth ∨ (cm.2.depth = acc.depth ∧ cm.2.tokens < acc.tokens))
      then cm.2 else acc)
    RuleSize.max

/-- The limit relaxation of the `wsum == 0` branch: raise each component of
`_limit` to the corresponding component of `_size + min_size` where the latter
exceeds it. -/
def altRelaxLimit (st : GenState) (min_sizes : List RuleSize) (conditions : List ℚ) : GenState :=
  let new_limit := st.size + altMinSize min_sizes conditions
  { st with limit :=
      ⟨if new_limit.depth > st.limit.depth then new_limit.depth else st.limit.depth,
       if new_limit.tokens > st.limit.tokens then new_limit.tokens else st.limit.tokens⟩ }

/-- `AlternationContext` constructor: the effect on the generator state,
together with the context data saved for the destructor.  (The choice of the
branch and the creation of the `UnparserRuleAlternative` node do not touch
`_size`/`_limit` and are omitted.) -/
def alternationEnter (st : GenState) (min_sizes : List RuleSize) (reserve : Int)
    (conditions : List ℚ) : GenState × AltCtx :=
  let ctx : AltCtx := ⟨st.limit.depth, reserve⟩
  let st := { st with size := ⟨st.size.depth, st.size.tokens + reserve⟩ }
  let wsum := (altWeights st min_sizes conditions).sum
  let st := if wsum = 0 then altRelaxLimit st min_sizes conditions else st
  (st, ctx)

/-- `AlternationContext` destructor: `_limit.depth = orig_depth_limit;`
`_size.tokens -= reserve;`.  `st` is the generator state at destruction time
(whatever generation did in between). -/
def alternationExit (st : GenState) (ctx : AltCtx) : GenState :=
  { st with
    limit := ⟨ctx.origDepthLimit, st.limit.tokens⟩,
    size := ⟨st.size.depth, st.size.tokens - ctx.reserve⟩ }

/-! ## `DefaultModel::choice` (runtime/DefaultModel.hpp, lines 28–36)

`choice` sums the weights with `std::accumulate`; if the sum is zero it
returns `weights.size() - 1` (a `size_t` subtraction, then an implicit
conversion to `int`); otherwise it delegates to
`util::random_weighted_choice`, i.e. `std::discrete_distribution`, which draws
an index with probability proportional to its weight.  The distribution is
modelled by its standard construction: a uniform draw `r` in `[0, sum)` and a
prefix-sum scan. -/

/-- `size_t` subtraction `n - 1` (wraps modulo `2^64`). -/
def usub64one (n : Nat) : Nat := (n + 2 ^ 64 - 1) % 2 ^ 64

/-- Conversion of a `size_t` value to a C++ `int` (two's complement,
modulo `2^32`). -/
def toInt32 (n : Nat) : Int :=
  let m := (n % 2 ^ 32 : Int)
  if m < 2 ^ 31 then m else m - 2 ^ 32

/-- Prefix-sum selection underlying `std::discrete_distribution`: scan the
weights, returning the first index whose cumulative weight exceeds the
uniform draw `r ∈ [0, sum)`. -/
def weightedChoiceGo : List ℚ → ℚ → Nat → Nat
  | [], _, i => i
  | w :: ws, r, i => if r < w then i else weightedChoiceGo ws (r - w) (i + 1)

/-- `util::random_weighted_choice(weights)` with the uniform draw `r` made
explicit. -/
def random_weighted_choice (weights : List ℚ) (r : ℚ) : Int :=
  weightedChoiceGo weights r 0

/-- `DefaultModel::choice(node, idx, weights)` (the node and alternation index
do not influence the result).  `r` is the uniform draw used by the
proportional branch. -/
def DefaultModel.choice (weights : List ℚ) (r : ℚ) : Int :=
  let sum := weights.sum
  if sum = 0 then
    toInt32 (usub64one weights.length)
  else
    random_weighted_choice weights r

/-! ## Theorems about the generation context stack -/

/-- C7: a repetition query of a `QuantifierContext` returns true if the
current count is `< start`; otherwise it returns true exactly when
`count < stop` and the generator's `size + min_size ≤ limit` (componentwise)
and `Model::quantify` returns true; and the count is incremented by one
exactly on the queries that return true. -/
theorem quantifierNext_spec (cnt start stop : Int) (min_size : RuleSize)
    (st : GenState) (q : Bool) :
    ((quantifierNext cnt start stop min_size st q).1 = true
      ↔ (cnt < start ∨ (¬ cnt < start ∧ cnt < stop ∧ st.size + min_size ≤ st.limit ∧ q = true)))
    ∧ (quantifierNext cnt start stop min_size st q).2
        = (if (quantifierNext cnt start stop min_size st q).1 then cnt + 1 else cnt) := by
  unfold quantifierNext
  by_cases h1 : cnt < start
  · simp [h1]
  · by_cases h2 : cnt < stop ∧ st.size + min_size ≤ st.limit ∧ q = true
    · simp [h1, h2]
    · simp [h1, h2]

/-- C1 counterexample: an `AlternationContext` that relaxes `_limit.tokens`
on entry (all feasibility weights zero, the minimal positive-condition
alternative needs 5 tokens but the limit allows 0) does not restore
`_limit.tokens` on exit: the destructor only restores `_limit.depth`.
Here entry state has `_limit = (10, 0)` but after enter-then-exit the limit
is `(10, 5)`. -/
theorem alternation_tokens_relaxation_persists :
    (alternationExit
        (alternationEnter ⟨⟨0, 0⟩, ⟨10, 0⟩⟩ [⟨1, 5⟩] 0 [1]).1
        (alternationEnter ⟨⟨0, 0⟩, ⟨10, 0⟩⟩ [⟨1, 5⟩] 0 [1]).2).limit
      = ⟨10, 5⟩
    ∧ (alternationExit
        (alternationEnter ⟨⟨0, 0⟩, ⟨10, 0⟩⟩ [⟨1, 5⟩] 0 [1]).1
        (alternationEnter ⟨⟨0, 0⟩, ⟨10, 0⟩⟩ [⟨1, 5⟩] 0 [1]).2).limit
      ≠ (⟨10, 0⟩ : RuleSize) := by
  have henter : alternationEnter ⟨⟨0, 0⟩, ⟨10, 0⟩⟩ [⟨1, 5⟩] 0 [1]
      = (⟨⟨0, 0⟩, ⟨10, 5⟩⟩, ⟨10, 0⟩) := by
    norm_num [alternationEnter, altWeights, altRelaxLimit, altMinSize,
      RuleSize.max, intMax, RuleSize.add_def, RuleSize.le_def]
  rw [henter]
  refine ⟨rfl, ?_⟩
  intro h
  have : (5 : Int) = 0 := congrArg RuleSize.tokens h
  simp at this

/-- C1 (amended): on exit from an `AlternationContext`, the depth component
of the generator's limit is restored to its value on entry and the token
reserve added on entry is released from the generator's size; the tokens
component of the limit is left untouched by the exit, so a `_limit.tokens`
relaxation made on entry persists.  `mid` is the arbitrary generator state
reached at destruction time. -/
theorem alternationExit_frame (st mid : GenState) (min_sizes : List RuleSize)
    (reserve : Int) (conditions : List ℚ) :
    (alternationExit mid (alternationEnter st min_sizes reserve conditions).2).limit.depth
        = st.limit.depth
    ∧ (alternationExit mid (alternationEnter st min_sizes reserve conditions).2).limit.tokens
        = mid.limit.tokens
    ∧ (alternationExit mid (alternationEnter st min_sizes reserve conditions).2).size.tokens
        = mid.size.tokens - reserve
    ∧ (alternationExit mid (alternationEnter st min_sizes reserve conditions).2).size.depth
        = mid.size.depth := by
  exact ⟨rfl, rfl, rfl, rfl⟩

/-! ## Theorems about `DefaultModel::choice` -/

/-- C8 counterexample: on the empty weight vector the weight sum is zero and
`choice` computes `weights.size() - 1` in `size_t` arithmetic, which converts
to the C++ `int` value `-1` — not an index in `[0, |weights|)` (that interval
is empty). -/
theorem choice_empty_returns_minus_one :
    DefaultModel.choice [] 0 = -1
    ∧ ¬ (0 ≤ DefaultModel.choice [] 0
          ∧ DefaultModel.choice [] 0 < ([] : List ℚ).length) := by
  decide

/-- Bounds for the prefix-sum scan of `std::discrete_distribution`: with
nonnegative weights and a draw `0 ≤ r < sum`, the selected index stays within
the weight vector. -/
theorem weightedChoiceGo_bounds (ws : List ℚ) (r : ℚ) (i : Nat)
    (h0 : 0 ≤ r) (hw : ∀ w ∈ ws, 0 ≤ w) (hr : r < ws.sum) :
    i ≤ weightedChoiceGo ws r i ∧ weightedChoiceGo ws r i < i + ws.length := by
  induction ws generalizing r i with
  | nil =>
    exfalso
    exact absurd (lt_of_le_of_lt h0 hr) (by simp)
  | cons w ws ih =>
    by_cases hlt : r < w
    · have hstep : weightedChoiceGo (w :: ws) r i = i := by
        simp [weightedChoiceGo, hlt]
      rw [hstep, List.length_cons]
      omega
    · have hw0 : 0 ≤ r - w := by
        have := not_lt.mp hlt
        linarith
      have hsum : r - w < ws.sum := by
        have : r < w + ws.sum := by simpa [List.sum_cons] using hr
        linarith
      have hws : ∀ x ∈ ws, 0 ≤ x := fun x hx => hw x (List.mem_cons_of_mem _ hx)
      have hih := ih (r - w) (i + 1) hw0 hws hsum
      have hstep : weightedChoiceGo (w :: ws) r i = weightedChoiceGo ws (r - w) (i + 1) := by
        simp [weightedChoiceGo, hlt]
      rw [hstep, List.length_cons]
      omega

/-- C8 (amended): for every nonempty weight vector with nonnegative entries
(and of realistic length), `DefaultModel::choice` returns an index in
`[0, |weights|)`; when the total weight is zero it returns the last index
`|weights| - 1`; and when the total is nonzero the proportional draw
`r ∈ [0, sum)` selects an in-range index.  (On the empty vector the code
returns `-1` instead; see the counterexample.) -/
theorem choice_in_range (weights : List ℚ) (r : ℚ)
    (hne : weights ≠ []) (hlen : weights.length ≤ 2 ^ 31)
    (hw : ∀ w ∈ weights, 0 ≤ w) (hr0 : 0 ≤ r)
    (hrs : weights.sum ≠ 0 → r < weights.sum) :
    (0 ≤ DefaultModel.choice weights r
      ∧ DefaultModel.choice weights r < weights.length)
    ∧ (weights.sum = 0 →
        DefaultModel.choice weights r = (weights.length : Int) - 1) := by
  have hpos : 1 ≤ weights.length := by
    cases weights with
    | nil => exact absurd rfl hne
    | cons a l => simp
  by_cases hz : weights.sum = 0
  · have hval : DefaultModel.choice weights r = (weights.length : Int) - 1 := by
      unfold DefaultModel.choice
      rw [if_pos hz]
      have h2 : usub64one weights.length = weights.length - 1 := by
        unfold usub64one
        omega
      rw [h2]
      unfold toInt32
      have h3 : ((weights.length - 1 : Nat) : Int) % 2 ^ 32 = ((weights.length - 1 : Nat) : Int) := by
        apply Int.emod_eq_of_lt (Int.natCast_nonneg _)
        exact_mod_cast (show weights.length - 1 < 2 ^ 32 by omega)
      simp only [h3]
      rw [if_pos]
      · omega
      · exact_mod_cast (show weights.length - 1 < 2 ^ 31 by omega)
    refine ⟨⟨?_, ?_⟩, fun _ => hval⟩
    · rw [hval]; omega
    · rw [hval]; omega
  · have hr := hrs hz
    have hb := weightedChoiceGo_bounds weights r 0 hr0 hw hr
    have hval : DefaultModel.choice weights r = (weightedChoiceGo weights r 0 : Int) := by
      unfold DefaultModel.choice random_weighted_choice
      rw [if_neg hz]
    refine ⟨⟨?_, ?_⟩, fun h => absurd h hz⟩
    · rw [hval]; exact_mod_cast Nat.zero_le _
    · rw [hval]
      have := hb.2
      simp only [Nat.zero_add] at this
      exact_mod_cast this

/-- C8 witness: the amended theorem instantiated at the concrete vectors
`[0, 2]` with draw `1` (nonzero sum) and `[0, 0]` (zero sum). -/
theorem choice_in_range_witness :
    ((0 ≤ DefaultModel.choice [0, 2] 1
        ∧ DefaultModel.choice [0, 2] 1 < ([0, 2] : List ℚ).length)
      ∧ (([0, 2] : List ℚ).sum = 0 →
          DefaultModel.choice [0, 2] 1 = (([0, 2] : List ℚ).length : Int) - 1))
    ∧ ((0 ≤ DefaultModel.choice [0, 0] 0
        ∧ DefaultModel.choice [0, 0] 0 < ([0, 0] : List ℚ).length)
      ∧ (([0, 0] : List ℚ).sum = 0 →
          DefaultModel.choice [0, 0] 0 = (([0, 0] : List ℚ).length : Int) - 1)) :=
  ⟨choice_in_range [0, 2] 1 (by decide) (by norm_num) (by decide) (by norm_num)
      (fun _ => by norm_num),
   choice_in_range [0, 0] 0 (by decide) (by norm_num) (by decide) (by norm_num)
      (fun h => absurd (by norm_num : ([0, 0] : List ℚ).sum = 0) (fun _ => h (by norm_num)))⟩

/-! ## The derivation-tree data model (`runtime/Rule.hpp`)

The five `Rule` variants as an inductive value type.  The C++ classes carry a
mutable `parent` back-pointer; for the claims stated over whole trees the
back-pointers are implied by the tree structure (a node is identified by its
path from the root).  The quantifier/quantified/alternative constructors fix
`name` to the empty string in C++, so those variants carry no name here. -/

inductive Rule where
  | UnlexerRule (name src : String) (size : RuleSize) (immutable : Bool)
  | UnparserRule (name : String) (children : List Rule)
  | UnparserRuleQuantifier (idx start stop : Int) (children : List Rule)
  | UnparserRuleQuantified (children : List Rule)
  | UnparserRuleAlternative (alt_idx idx : Int) (children : List Rule)

/-! ## `Tool::memoize_test` (tool/Tool.hpp, lines 154–178) -/

/-- The memo state.  The C++ keeps a `std::set` `memo` of hashes plus a
`std::list` `memo_order` of iterators into the set in insertion order (head =
oldest); the set always holds exactly the elements of the list, so a single
list models both. -/
structure MemoState where
  order : List Nat
deriving DecidableEq, Repr

/-- `Tool::memoize_test`.  `memoSize` is the `memo_size` field (a C++ `int`);
`h` is the `XXH3_64bits` hash of the input bytes (the hash function is an
external library call; the memo logic operates on hash values).  Returns the
updated state and the returned boolean. -/
def memoize_test (memoSize : Int) (st : MemoState) (h : Nat) : MemoState × Bool :=
  if memoSize < 1 then (st, true)
  else if h ∈ st.order then (st, false)
  else
    let order := st.order ++ [h]
    if (order.length : Int) > memoSize then (⟨order.tail⟩, true)
    else (⟨order⟩, true)

/-- A sequence of `memoize_test` calls starting from the given state,
collecting the returned booleans. -/
def memoizeRunGo (memoSize : Int) (st : MemoState) : List Nat → MemoState × List Bool
  | [] => (st, [])
  | h :: hs =>
    let r := memoize_test memoSize st h
    let rest := memoizeRunGo memoSize r.1 hs
    (rest.1, r.2 :: rest.2)

/-- A run of `memoize_test` from the empty memo (the `Tool`'s initial state). -/
def memoizeRun (memoSize : Int) (hs : List Nat) : MemoState × List Bool :=
  memoizeRunGo memoSize ⟨[]⟩ hs

/-- The inputs of the calls of a run that returned true, i.e. the hashes that
got inserted, in insertion order. -/
def insertedHashes (memoSize : Int) (hs : List Nat) : List Nat :=
  (List.zip hs (memoizeRun memoSize hs).2).filterMap
    (fun p => if p.2 then some p.1 else none)

/-- The at most `k` last elements of a list. -/
def takeLast (k : Nat) (l : List Nat) : List Nat := l.drop (l.length - k)

/-! ## `Tool::create_tree` (tool/Tool.hpp, lines 130–151) -/

/-- The retry loop of `Tool::create_tree`.  `creators` is the working copy of
the creators map: a list of (unique) names paired with the tree the creator
would return on this invocation (`none` models a `nullptr` return).  `picks`
feeds `select_creator`'s uniform index draws; the draw is reduced modulo the
current map size, mirroring `random_int(0, creators.size() - 1)` always being
in range.  The fuel argument equals the number of creators and only bounds
the loop, which removes one creator per failing iteration. -/
def create_tree_go {α : Type} : Nat → List (String × Option α) → List Nat → Option α
  | 0, _, _ => none
  | _, [], _ => none
  | fuel + 1, creators, picks =>
    let idx := picks.headD 0 % creators.length
    match (creators.getD idx ("", none)).2 with
    | some t => some t
    | none => create_tree_go fuel (creators.eraseIdx idx) picks.tail

/-- `Tool::create_tree(creators, individual1, individual2)`: run the retry
loop; if no creator succeeded, fall back to `individual1->root()`; then apply
every registered transformer in order (the C++ transformer loop runs on
whichever root was selected, including the fallback). -/
def create_tree {α : Type} (creators : List (String × Option α)) (picks : List Nat)
    (i1root : α) (transformers : List (α → α)) : α :=
  let root :=
    match create_tree_go creators.length creators picks with
    | some t => t
    | none => i1root
  transformers.foldl (fun r f => f r) root

/-! ## `SubTreePopulation::select_by_type` (tool/SubTreePopulation.hpp, lines 187–215) -/

/-- The recorded data of one interned candidate node: its `RuleData` size
(depth, tokens, both nonnegative by construction) and refcount. -/
structure CandData where
  depth : Nat
  tokens : Nat
  refcount : Nat
deriving DecidableEq, Repr

/-- The sampling loop of `select_by_type`: walk the bucket, skip candidates
that violate the bound, accumulate `1.0 / refcount`, return the first
candidate whose accumulated weight reaches the draw `r`. -/
def selectScan (maxDepth maxTokens : Nat) (r : ℚ) : List CandData → ℚ → Option CandData
  | [], _ => none
  | c :: cs, acc =>
    if c.depth > maxDepth ∨ c.tokens > maxTokens then
      selectScan maxDepth maxTokens r cs acc
    else
      let acc' := acc + 1 / (c.refcount : ℚ)
      if acc' ≥ r then some c else selectScan maxDepth maxTokens r cs acc'

/-- `SubTreePopulation::select_by_type` on the bucket `cands` for the
requested key (an absent key, i.e. an absent bucket, returns nothing before
this code runs).  `r` is the uniform draw in `[0, total_w)`.  Returning a
candidate models returning a fresh `Individual` wrapping a clone of it. -/
def select_by_type (cands : List CandData) (maxDepth maxTokens : Nat) (r : ℚ) :
    Option CandData :=
  let total_w :=
    ((cands.filter (fun c => c.depth ≤ maxDepth ∧ c.tokens ≤ maxTokens)).map
      (fun c => 1 / (c.refcount : ℚ))).sum
  if total_w ≤ 0 then none
  else
    match selectScan maxDepth maxTokens r cands 0 with
    | some c => some c
    | none =>
      match cands.find? (fun c => c.tokens ≤ maxTokens) with
      | some c => some c
      | none => none

/-! ## Theorems about `memoize_test` -/

theorem takeLast_of_le {k : Nat} {l : List Nat} (h : l.length ≤ k) : takeLast k l = l := by
  simp [takeLast, Nat.sub_eq_zero_of_le h]

theorem takeLast_append (k : Nat) (l m : List Nat) :
    takeLast k (takeLast k l ++ m) = takeLast k (l ++ m) := by
  unfold takeLast
  have hb : l.length - k ≤ l.length := Nat.sub_le _ _
  rw [show (l.drop (l.length - k) ++ m)
        = (l ++ m).drop (l.length - k) from (List.drop_append_of_le_length hb).symm]
  rw [List.drop_drop]
  congr 1
  rw [List.length_append, List.length_drop, List.length_append]
  omega

/-- The FIFO window invariant of `memoize_test` runs: starting from a memo
whose order list is within capacity and duplicate-free, after any sequence of
calls the memo holds exactly the last (at most) `memo_size` inserted hashes,
in insertion order, without duplicates. -/
theorem memoizeRunGo_window (k : Int) (hk : 1 ≤ k) (hs : List Nat) :
    ∀ st : MemoState, st.order.length ≤ k.toNat → st.order.Nodup →
      (memoizeRunGo k st hs).1.order
          = takeLast k.toNat (st.order ++
              (List.zip hs (memoizeRunGo k st hs).2).filterMap
                (fun p => if p.2 then some p.1 else none))
        ∧ (memoizeRunGo k st hs).1.order.length ≤ k.toNat
        ∧ (memoizeRunGo k st hs).1.order.Nodup := by
  induction hs with
  | nil =>
    intro st hlen hnd
    refine ⟨?_, hlen, hnd⟩
    simp [memoizeRunGo, takeLast_of_le hlen]
  | cons h hs ih =>
    intro st hlen hnd
    by_cases hmem : h ∈ st.order
    · have hr : memoize_test k st h = (st, false) := by
        unfold memoize_test
        rw [if_neg (by omega), if_pos hmem]
      have ihs := ih st hlen hnd
      simp only [memoizeRunGo, hr]
      refine ⟨?_, ihs.2.1, ihs.2.2⟩
      simpa using ihs.1
    · -- the hash is inserted; the oldest entry is evicted when over capacity
      have hcap : (st.order ++ [h]).length = st.order.length + 1 := by simp
      by_cases hevict : ((st.order ++ [h]).length : Int) > k
      · have hfull : st.order.length = k.toNat := by
          rw [hcap] at hevict
          omega
        have hr : memoize_test k st h = (⟨(st.order ++ [h]).tail⟩, true) := by
          unfold memoize_test
          rw [if_neg (by omega), if_neg hmem, if_pos hevict]
        have hst1 : (st.order ++ [h]).tail = takeLast k.toNat (st.order ++ [h]) := by
          unfold takeLast
          rw [hcap, hfull, show k.toNat + 1 - k.toNat = 1 by omega, List.drop_one]
        have hnd1 : ((st.order ++ [h]).tail).Nodup :=
          ((List.nodup_append.mpr ⟨hnd, List.nodup_singleton h,
            by simpa using hmem⟩).sublist (List.tail_sublist _))
        have hlen1 : ((st.order ++ [h]).tail).length ≤ k.toNat := by
          simp [hcap, hfull]
        have ihs := ih ⟨(st.order ++ [h]).tail⟩ hlen1 hnd1
        simp only [memoizeRunGo, hr]
        refine ⟨?_, ihs.2.1, ihs.2.2⟩
        have key : st.order ++ (List.zip (h :: hs)
              (true :: (memoizeRunGo k ⟨(st.order ++ [h]).tail⟩ hs).2)).filterMap
              (fun p => if p.2 then some p.1 else none)
            = (st.order ++ [h]) ++ (List.zip hs (memoizeRunGo k ⟨(st.order ++ [h]).tail⟩ hs).2).filterMap
              (fun p => if p.2 then some p.1 else none) := by
          simp
        rw [key, ← takeLast_append, ← hst1]
        exact ihs.1
      · have hr : memoize_test k st h = (⟨st.order ++ [h]⟩, true) := by
          unfold memoize_test
          rw [if_neg (by omega), if_neg hmem, if_neg hevict]
        have hnd1 : (st.order ++ [h]).Nodup :=
          List.nodup_append.mpr ⟨hnd, List.nodup_singleton h, by simpa using hmem⟩
        have hlen1 : (st.order ++ [h]).length ≤ k.toNat := by
          rw [hcap] at hevict ⊢
          omega
        have ihs := ih ⟨st.order ++ [h]⟩ hlen1 hnd1
        simp only [memoizeRunGo, hr]
        refine ⟨?_, ihs.2.1, ihs.2.2⟩
        have key : st.order ++ (List.zip (h :: hs)
              (true :: (memoizeRunGo k ⟨st.order ++ [h]⟩ hs).2)).filterMap
              (fun p => if p.2 then some p.1 else none)
            = (st.order ++ [h]) ++ (List.zip hs (memoizeRunGo k ⟨st.order ++ [h]⟩ hs).2).filterMap
              (fun p => if p.2 then some p.1 else none) := by
          simp
        rw [key]
        exact ihs.1

/-- C5: `memoize_test` is a FIFO-bounded set of hashes.  With
`memo_size = k ≥ 1`, after any run the memo holds exactly the at most `k`
most recently inserted distinct hashes (the FIFO window of the inputs of the
calls that returned true), and the next call returns false exactly when its
hash is in that window; with `memo_size ≤ 0` every call returns true and
nothing is ever stored. -/
theorem memoize_test_spec (k : Int) (hs : List Nat) (h : Nat) :
    (1 ≤ k →
      (memoizeRun k hs).1.order = takeLast k.toNat (insertedHashes k hs)
        ∧ (memoizeRun k hs).1.order.length ≤ k.toNat
        ∧ (memoizeRun k hs).1.order.Nodup
        ∧ ((memoize_test k (memoizeRun k hs).1 h).2 = false
            ↔ h ∈ (memoizeRun k hs).1.order))
    ∧ (k < 1 →
        (memoizeRun k hs).1 = ⟨[]⟩ ∧ ∀ b ∈ (memoizeRun k hs).2, b = true) := by
  constructor
  · intro hk
    have hw := memoizeRunGo_window k hk hs ⟨[]⟩ (by simp) (by simp)
    refine ⟨?_, hw.2.1, hw.2.2, ?_⟩
    · rw [show insertedHashes k hs
          = (List.zip hs (memoizeRunGo k ⟨[]⟩ hs).2).filterMap
              (fun p => if p.2 then some p.1 else none) from rfl]
      simpa [memoizeRun] using hw.1
    · unfold memoize_test
      rw [if_neg (by omega)]
      by_cases hmem : h ∈ (memoizeRun k hs).1.order
      · rw [if_pos hmem]
        simpa using hmem
      · rw [if_neg hmem]
        constructor
        · intro hfalse
          exfalso
          by_cases hbig : ((((memoizeRun k hs).1.order ++ [h]).length : Int)) > k
          · rw [if_pos hbig] at hfalse
            simp at hfalse
          · rw [if_neg hbig] at hfalse
            simp at hfalse
        · intro hx
          exact absurd hx hmem
  · intro hk
    have : ∀ st : MemoState, (memoizeRunGo k st hs).1 = st
        ∧ ∀ b ∈ (memoizeRunGo k st hs).2, b = true := by
      intro st
      induction hs generalizing st with
      | nil => simp [memoizeRunGo]
      | cons h hs ih =>
        have hr : memoize_test k st h = (st, true) := by
          unfold memoize_test
          rw [if_pos (by omega)]
        simp only [memoizeRunGo, hr]
        refine ⟨(ih st).1, ?_⟩
        intro b hb
        rcases List.mem_cons.mp hb with hb | hb
        · exact hb
        · exact (ih st).2 b hb
    exact ⟨(this ⟨[]⟩).1, (this ⟨[]⟩).2⟩

/-- C5 witness: the theorem instantiated at `memo_size = 2` with the run
`[5, 6, 7, 5]` and probe hash `7`, and at `memo_size = 0` with the same run
and probe `5`. -/
theorem memoize_test_spec_witness :
    ((memoizeRun 2 [5, 6, 7, 5]).1.order = takeLast (2 : Int).toNat (insertedHashes 2 [5, 6, 7, 5])
      ∧ (memoizeRun 2 [5, 6, 7, 5]).1.order.length ≤ (2 : Int).toNat
      ∧ (memoizeRun 2 [5, 6, 7, 5]).1.order.Nodup
      ∧ ((memoize_test 2 (memoizeRun 2 [5, 6, 7, 5]).1 7).2 = false
          ↔ 7 ∈ (memoizeRun 2 [5, 6, 7, 5]).1.order))
    ∧ ((memoizeRun 0 [5, 6, 7, 5]).1 = ⟨[]⟩
        ∧ ∀ b ∈ (memoizeRun 0 [5, 6, 7, 5]).2, b = true) :=
  ⟨(memoize_test_spec 2 [5, 6, 7, 5] 7).1 (by norm_num),
   (memoize_test_spec 0 [5, 6, 7, 5] 5).2 (by norm_num)⟩

/-! ## Theorems about `create_tree` -/

theorem getD_mem_or {α : Type} (l : List α) (n : Nat) (d : α) :
    l.getD n d ∈ l ∨ l.getD n d = d := by
  induction l generalizing n with
  | nil => right; cases n <;> rfl
  | cons a t ih =>
    cases n with
    | zero => left; simp [List.getD]
    | succ m =>
      rcases ih m with hm | hm
      · left
        simpa [List.getD] using List.mem_cons_of_mem a (by simpa [List.getD] using hm)
      · right
        simpa [List.getD] using hm

theorem create_tree_go_all_none {α : Type} :
    ∀ (fuel : Nat) (creators : List (String × Option α)) (picks : List Nat),
      (∀ c ∈ creators, c.2 = none) →
      create_tree_go fuel creators picks = none := by
  intro fuel
  induction fuel with
  | zero =>
    intro creators picks hall
    cases creators <;> rfl
  | succ n ih =>
    intro creators picks hall
    match creators with
    | [] => rfl
    | c :: cs =>
      have hel : ((c :: cs).getD (picks.headD 0 % (c :: cs).length) ("", none)).2 = none := by
        rcases getD_mem_or (c :: cs) (picks.headD 0 % (c :: cs).length) ("", none) with hm | hm
        · exact hall _ hm
        · rw [hm]
      show (match ((c :: cs).getD (picks.headD 0 % (c :: cs).length) ("", none)).2 with
          | some t => some t
          | none => create_tree_go n ((c :: cs).eraseIdx (picks.headD 0 % (c :: cs).length)) picks.tail)
        = none
      rw [hel]
      exact ih _ picks.tail
        (fun x hx => hall x (((c :: cs).eraseIdx_sublist _).subset hx))

/-- C6 (amended): when every creator invoked by `create_tree` returns null,
the working copy empties with no success and `create_tree` falls back to
`individual1->root()` — but then still applies every registered transformer
in order to it; the fallback root is returned unchanged exactly when no
transformer is registered. -/
theorem create_tree_all_fail {α : Type} (creators : List (String × Option α))
    (picks : List Nat) (i1root : α) (transformers : List (α → α))
    (hall : ∀ c ∈ creators, c.2 = none) :
    create_tree creators picks i1root transformers
      = transformers.foldl (fun r f => f r) i1root
    ∧ (transformers = [] → create_tree creators picks i1root transformers = i1root) := by
  have hgo := create_tree_go_all_none creators.length creators picks hall
  constructor
  · unfold create_tree
    rw [hgo]
  · intro ht
    unfold create_tree
    rw [hgo, ht]
    rfl

/-- C6 witness: the amended theorem at one failing creator, a concrete root
and one transformer. -/
theorem create_tree_all_fail_witness :
    (create_tree [("mut", (none : Option Rule))] [0]
        (Rule.UnlexerRule "a" "x" ⟨1, 1⟩ false)
        [fun _ => Rule.UnlexerRule "b" "y" ⟨1, 1⟩ false]
      = [fun _ => Rule.UnlexerRule "b" "y" ⟨1, 1⟩ false].foldl (fun r f => f r)
          (Rule.UnlexerRule "a" "x" ⟨1, 1⟩ false))
    ∧ ([fun _ => Rule.UnlexerRule "b" "y" ⟨1, 1⟩ false] = ([] : List (Rule → Rule)) →
        create_tree [("mut", (none : Option Rule))] [0]
          (Rule.UnlexerRule "a" "x" ⟨1, 1⟩ false)
          [fun _ => Rule.UnlexerRule "b" "y" ⟨1, 1⟩ false]
        = Rule.UnlexerRule "a" "x" ⟨1, 1⟩ false) :=
  create_tree_all_fail [("mut", none)] [0] (Rule.UnlexerRule "a" "x" ⟨1, 1⟩ false)
    [fun _ => Rule.UnlexerRule "b" "y" ⟨1, 1⟩ false]
    (by intro c hc; simp at hc; rw [hc])

/-- C6 counterexample: with one registered transformer that maps every tree
to a fixed different tree, a `create_tree` call in which every creator
returns null does not return `i1`'s root unchanged: the transformer is
applied to the fallback root too. -/
theorem create_tree_fallback_not_unchanged :
    create_tree [("mut", (none : Option Rule))] [0]
        (Rule.UnlexerRule "a" "x" ⟨1, 1⟩ false)
        [fun _ => Rule.UnlexerRule "b" "y" ⟨1, 1⟩ false]
      = Rule.UnlexerRule "b" "y" ⟨1, 1⟩ false
    ∧ Rule.UnlexerRule "b" "y" ⟨1, 1⟩ false ≠ Rule.UnlexerRule "a" "x" ⟨1, 1⟩ false := by
  refine ⟨rfl, ?_⟩
  simp

/-! ## Theorems about `select_by_type` -/

/-- C3: `select_by_type` called on a non-empty bucket whose single candidate
has recorded size `(depth 5, tokens 2)` with bounds `max_depth = 3`,
`max_tokens = 10`: every candidate violates the bound, so the total sampling
weight is zero — and the code returns nothing at the `total_w <= 0` guard,
although the candidate satisfies `tokens ≤ max_tokens` and the tokens-only
fallback loop (dead code behind that guard) would have returned it. -/
theorem select_by_type_zero_weight_returns_none :
    select_by_type [⟨5, 2, 1⟩] 3 10 0 = none
    ∧ (⟨5, 2, 1⟩ : CandData) ∈ [(⟨5, 2, 1⟩ : CandData)]
    ∧ ¬ ((5 : Nat) ≤ 3 ∧ (2 : Nat) ≤ 10)
    ∧ (2 : Nat) ≤ 10 := by
  refine ⟨?_, List.mem_singleton.mpr rfl, by norm_num, by norm_num⟩
  norm_num [select_by_type]

/-! ## `Rule::replace` and `Rule::remove` (runtime/Rule.hpp, lines 659–676)

These two methods read and write only the `parent` back-pointer and the
parent's `children` vector, independently of the node variant, so the heap
records exactly those two fields per node.  Nodes are identified by their
index in the heap. -/

/-- The connectivity fields of one C++ `Rule` object. -/
structure NodeLinks where
  parent : Option Nat
  children : List Nat
deriving DecidableEq, Repr

/-- A heap of `Rule` objects: node `i` is entry `i`. -/
abbrev Heap := List NodeLinks

/-- Read a node (out-of-heap indices read as a detached childless node;
the theorems below only rely on in-heap reads). -/
def getNode (h : Heap) (n : Nat) : NodeLinks := h.getD n ⟨none, []⟩

def parentOf (h : Heap) (n : Nat) : Option Nat := (getNode h n).parent

def childrenOf (h : Heap) (n : Nat) : List Nat := (getNode h n).children

def setParent (h : Heap) (n : Nat) (p : Option Nat) : Heap :=
  h.set n ⟨p, childrenOf h n⟩

def setChildren (h : Heap) (n : Nat) (cs : List Nat) : Heap :=
  h.set n ⟨parentOf h n, cs⟩

/-- `Rule::remove`: if the node has a parent, erase the first occurrence of
the node from the parent's `children` (`std::find` + `erase`) and null the
back-pointer. -/
def Rule.remove (h : Heap) (n : Nat) : Heap :=
  match parentOf h n with
  | none => h
  | some p => setParent (setChildren h p ((childrenOf h p).erase n)) n none

/-- The substitution half of `Rule::replace`, run after `node->remove()`:
if the receiver still has a parent and `node != this`, overwrite the first
occurrence of the receiver in the parent's children with `node`
(`*std::find(...) = node`), point `node->parent` at that parent and null the
receiver's back-pointer; otherwise do nothing. -/
def replaceStep (h1 : Heap) (recv node : Nat) : Heap :=
  match parentOf h1 recv with
  | some p =>
    if node ≠ recv then
      setParent (setParent (setChildren h1 p ((childrenOf h1 p).replace recv node))
        node (some p)) recv none
    else h1
  | none => h1

/-- `Rule::replace(node)` on receiver `recv`: first `node->remove()`, then
the conditional substitution, then return `node`. -/
def Rule.replace (h : Heap) (recv node : Nat) : Heap × Nat :=
  (replaceStep (Rule.remove h node) recv node, node)

/-! ## Theorems about `Rule::replace` -/

theorem getD_set_self {α : Type} (l : List α) (i : Nat) (a d : α) (h : i < l.length) :
    (l.set i a).getD i d = a := by
  induction l generalizing i with
  | nil => simp at h
  | cons x xs ih =>
    cases i with
    | zero => rfl
    | succ j => exact ih j (by simpa using h)

theorem getD_set_ne {α : Type} (l : List α) (i j : Nat) (a d : α) (h : i ≠ j) :
    (l.set i a).getD j d = l.getD j d := by
  induction l generalizing i j with
  | nil => cases i <;> rfl
  | cons x xs ih =>
    cases i with
    | zero =>
      cases j with
      | zero => exact absurd rfl h
      | succ j' => rfl
    | succ i' =>
      cases j with
      | zero => rfl
      | succ j' => exact ih i' j' (fun hij => h (by rw [hij]))

theorem length_setParent (h : Heap) (n : Nat) (p : Option Nat) :
    (setParent h n p).length = h.length := by
  simp [setParent]

theorem length_setChildren (h : Heap) (n : Nat) (cs : List Nat) :
    (setChildren h n cs).length = h.length := by
  simp [setChildren]

theorem parentOf_setParent_self (h : Heap) (n : Nat) (p : Option Nat) (hn : n < h.length) :
    parentOf (setParent h n p) n = p := by
  unfold parentOf getNode setParent
  rw [getD_set_self _ _ _ _ hn]

theorem parentOf_setParent_ne (h : Heap) (n m : Nat) (p : Option Nat) (hnm : m ≠ n) :
    parentOf (setParent h n p) m = parentOf h m := by
  unfold parentOf getNode setParent
  rw [getD_set_ne _ _ _ _ _ (fun hh => hnm hh.symm)]

theorem parentOf_setChildren (h : Heap) (n m : Nat) (cs : List Nat) :
    parentOf (setChildren h n cs) m = parentOf h m := by
  by_cases hnm : m = n
  · subst hnm
    by_cases hlt : m < h.length
    · unfold parentOf getNode setChildren
      rw [getD_set_self _ _ _ _ hlt]
      rfl
    · unfold parentOf getNode setChildren
      rw [List.getD_eq_default _ _ (le_of_not_lt hlt),
          List.getD_eq_default _ _ (by simpa using le_of_not_lt hlt)]
  · unfold parentOf getNode setChildren
    rw [getD_set_ne _ _ _ _ _ (fun hh => hnm hh.symm)]

theorem childrenOf_setChildren_self (h : Heap) (n : Nat) (cs : List Nat) (hn : n < h.length) :
    childrenOf (setChildren h n cs) n = cs := by
  unfold childrenOf getNode setChildren
  rw [getD_set_self _ _ _ _ hn]

theorem childrenOf_setChildren_ne (h : Heap) (n m : Nat) (cs : List Nat) (hnm : m ≠ n) :
    childrenOf (setChildren h n cs) m = childrenOf h m := by
  unfold childrenOf getNode setChildren
  rw [getD_set_ne _ _ _ _ _ (fun hh => hnm hh.symm)]

theorem childrenOf_setParent (h : Heap) (n m : Nat) (p : Option Nat) :
    childrenOf (setParent h n p) m = childrenOf h m := by
  by_cases hnm : m = n
  · subst hnm
    by_cases hlt : m < h.length
    · unfold childrenOf getNode setParent
      rw [getD_set_self _ _ _ _ hlt]
      rfl
    · unfold childrenOf getNode setParent
      rw [List.getD_eq_default _ _ (le_of_not_lt hlt),
          List.getD_eq_default _ _ (by simpa using le_of_not_lt hlt)]
  · unfold childrenOf getNode setParent
    rw [getD_set_ne _ _ _ _ _ (fun hh => hnm hh.symm)]

theorem parentOf_lt_of_some {h : Heap} {n p : Nat} (hp : parentOf h n = some p) :
    n < h.length := by
  by_contra hn
  have hd : getNode h n = ⟨none, []⟩ := List.getD_eq_default _ _ (le_of_not_lt hn)
  rw [parentOf, hd] at hp
  exact Option.noConfusion hp

theorem count_pos_lt {h : Heap} {p n : Nat} (hc : 0 < (childrenOf h p).count n) :
    p < h.length := by
  by_contra hp
  have hd : getNode h p = ⟨none, []⟩ := List.getD_eq_default _ _ (le_of_not_lt hp)
  rw [childrenOf, hd] at hc
  simp at hc

theorem remove_eq_none {h : Heap} {n : Nat} (hp : parentOf h n = none) :
    Rule.remove h n = h := by
  unfold Rule.remove
  rw [hp]

theorem remove_eq_some {h : Heap} {n p : Nat} (hp : parentOf h n = some p) :
    Rule.remove h n = setParent (setChildren h p ((childrenOf h p).erase n)) n none := by
  unfold Rule.remove
  rw [hp]

/-- After `remove`, the removed node's back-pointer is null (it was null
already, or the method nulls it). -/
theorem remove_parent_none (h : Heap) (n : Nat) :
    parentOf (Rule.remove h n) n = none := by
  cases hp : parentOf h n with
  | none => rw [remove_eq_none hp]; exact hp
  | some p =>
    have hn : n < h.length := parentOf_lt_of_some hp
    rw [remove_eq_some hp,
        parentOf_setParent_self _ _ _ (by rw [length_setChildren]; exact hn)]

/-- After `remove`, a node with a unique occurrence in its parent's children
is gone from that children vector. -/
theorem remove_not_mem_children {h : Heap} {n p : Nat}
    (hp : parentOf h n = some p) (hc : (childrenOf h p).count n = 1) :
    n ∉ childrenOf (Rule.remove h n) p := by
  have hplt : p < h.length := @count_pos_lt h p n (by rw [hc]; exact Nat.zero_lt_one)
  have hcs : childrenOf (Rule.remove h n) p = (childrenOf h p).erase n := by
    rw [remove_eq_some hp, childrenOf_setParent,
        childrenOf_setChildren_self _ _ _ hplt]
  rw [hcs]
  intro hmem
  have hce := List.count_erase_self n (childrenOf h p)
  have hpos : 0 < ((childrenOf h p).erase n).count n := List.count_pos_iff.mpr hmem
  omega

/-- The parent pointer of a node other than the removed one is untouched by
`remove`. -/
theorem remove_parent_other (h : Heap) (n m : Nat) (hnm : m ≠ n) :
    parentOf (Rule.remove h n) m = parentOf h m := by
  cases hp : parentOf h n with
  | none => rw [remove_eq_none hp]
  | some p =>
    rw [remove_eq_some hp, parentOf_setParent_ne _ _ _ _ hnm, parentOf_setChildren]

theorem replaceStep_eq_none {h1 : Heap} {recv node : Nat}
    (hq : parentOf h1 recv = none) : replaceStep h1 recv node = h1 := by
  unfold replaceStep
  rw [hq]

theorem replaceStep_eq_self (h1 : Heap) (recv : Nat) :
    replaceStep h1 recv recv = h1 := by
  unfold replaceStep
  cases hq : parentOf h1 recv with
  | none => rfl
  | some p => simp

/-- C10: `Rule::replace(node)` always detaches `node` first and returns it;
when the receiver has no parent or `node` is the receiver itself, no
substitution takes place — the whole call is exactly `node->remove()`
returning `node` — and consequently `n.replace(n)` on a node `n` with a
parent removes `n` from its tree (its back-pointer is nulled and it
disappears from its former parent's children) instead of leaving it in
place. -/
theorem replace_spec (h : Heap) (recv node p : Nat) :
    (Rule.replace h recv node).2 = node
    ∧ ((parentOf h recv = none ∨ node = recv) →
        Rule.replace h recv node = (Rule.remove h node, node))
    ∧ (node = recv → parentOf h node = some p → (childrenOf h p).count node = 1 →
        parentOf (Rule.replace h recv node).1 node = none
        ∧ node ∉ childrenOf (Rule.replace h recv node).1 p) := by
  have hedge : (parentOf h recv = none ∨ node = recv) →
      Rule.replace h recv node = (Rule.remove h node, node) := by
    intro hcase
    unfold Rule.replace
    rcases hcase with hnone | heq
    · by_cases hnr : node = recv
      · subst hnr
        rw [replaceStep_eq_none (by rw [remove_parent_none])]
      · rw [replaceStep_eq_none
            (by rw [remove_parent_other h node recv (fun hh => hnr hh.symm)]; exact hnone)]
    · subst heq
      rw [replaceStep_eq_self]
  refine ⟨rfl, hedge, ?_⟩
  intro heq hp hc
  rw [hedge (Or.inr heq)]
  exact ⟨remove_parent_none h node, remove_not_mem_children hp hc⟩

/-- C10 witness: the theorem applied to the concrete two-node heap in which
node 1 is the only child of node 0, for the call `1.replace(1)`: the result
is node 1 detached from node 0's children. -/
theorem replace_spec_witness :
    (Rule.replace [⟨none, [1]⟩, ⟨some 0, []⟩] 1 1).2 = 1
    ∧ Rule.replace [⟨none, [1]⟩, ⟨some 0, []⟩] 1 1
        = (Rule.remove [⟨none, [1]⟩, ⟨some 0, []⟩] 1, 1)
    ∧ parentOf (Rule.replace [⟨none, [1]⟩, ⟨some 0, []⟩] 1 1).1 1 = none
    ∧ 1 ∉ childrenOf (Rule.replace [⟨none, [1]⟩, ⟨some 0, []⟩] 1 1).1 0 := by
  have hs := replace_spec [⟨none, [1]⟩, ⟨some 0, []⟩] 1 1 0
  have h3 := hs.2.2 rfl (by decide) (by decide)
  exact ⟨hs.1, hs.2.1 (Or.inr rfl), h3.1, h3.2⟩

/-! ## The FlatBuffers tree codec (tool/FlatBuffersTreeCodec.hpp)

`encode` lowers a tree to a FlatBuffers `FBRule` table per node and `decode`
reads it back.  The byte-level FlatBuffers serialization (builder, verifier)
is an external library declared round-trip-exact on the logical table
content, so the codec is modelled down to the logical `FBRule` records:
exactly the fields `buildFBRule` writes, with FlatBuffers defaults
(`0`/`""`/`false`/`[]`) for the fields it leaves unset. -/

/-- The logical content of one `fbs::FBRule` table. -/
inductive FBRule where
  | mk (ftype : Nat) (name src : String) (sizeDepth sizeTokens : Int)
      (immutable : Bool) (idx start stop alt_idx : Int) (children : List FBRule)

/-- The `fbs::FBRuleType` tag values (distinct constants; only their
distinctness matters). -/
def fbType : Rule → Nat
  | .UnlexerRule .. => 0
  | .UnparserRule .. => 1
  | .UnparserRuleQuantifier .. => 2
  | .UnparserRuleQuantified .. => 3
  | .UnparserRuleAlternative .. => 4

mutual

/-- `FlatBuffersTreeCodec::buildFBRule`: lower one node, encoding a
quantifier `stop` of `INT_MAX` as `-1`. -/
def buildFBRule : Rule → FBRule
  | .UnlexerRule name src size imm =>
    ⟨0, name, src, size.depth, size.tokens, imm, 0, 0, 0, 0, []⟩
  | .UnparserRule name cs =>
    ⟨1, name, "", 0, 0, false, 0, 0, 0, 0, buildFBRuleList cs⟩
  | .UnparserRuleQuantifier idx start stop cs =>
    ⟨2, "", "", 0, 0, false, idx, start, if stop = intMax then -1 else stop, 0,
      buildFBRuleList cs⟩
  | .UnparserRuleQuantified cs =>
    ⟨3, "", "", 0, 0, false, 0, 0, 0, 0, buildFBRuleList cs⟩
  | .UnparserRuleAlternative alt_idx idx cs =>
    ⟨4, "", "", 0, 0, false, idx, 0, 0, alt_idx, buildFBRuleList cs⟩

def buildFBRuleList : List Rule → List FBRule
  | [] => []
  | r :: rs => buildFBRule r :: buildFBRuleList rs

end

mutual

/-- `FlatBuffersTreeCodec::readFBRule`: rebuild one node, decoding a stored
`stop` of `-1` back to `INT_MAX`; an unrecognized type tag yields nothing
(the C++ would dereference a null `parent_rule`). -/
def readFBRule : FBRule → Option Rule
  | ⟨t, name, src, d, tk, imm, idx, start, stop, alt_idx, cs⟩ =>
    if t = 0 then some (.UnlexerRule name src ⟨d, tk⟩ imm)
    else if t = 1 then (readFBRuleList cs).map (Rule.UnparserRule name)
    else if t = 2 then
      (readFBRuleList cs).map
        (Rule.UnparserRuleQuantifier idx start (if stop = -1 then intMax else stop))
    else if t = 3 then (readFBRuleList cs).map Rule.UnparserRuleQuantified
    else if t = 4 then (readFBRuleList cs).map (Rule.UnparserRuleAlternative alt_idx idx)
    else none

def readFBRuleList : List FBRule → Option (List Rule)
  | [] => some []
  | r :: rs =>
    match readFBRule r, readFBRuleList rs with
    | some x, some xs => some (x :: xs)
    | _, _ => none

end

mutual

/-- No quantifier in the tree stores the literal `stop` value `-1` (the value
the codec reserves as the `INT_MAX` sentinel). -/
def noSentinelStop : Rule → Bool
  | .UnlexerRule .. => true
  | .UnparserRule _ cs => noSentinelStopList cs
  | .UnparserRuleQuantifier _ _ stop cs =>
    (if stop = -1 then false else true) && noSentinelStopList cs
  | .UnparserRuleQuantified cs => noSentinelStopList cs
  | .UnparserRuleAlternative _ _ cs => noSentinelStopList cs

def noSentinelStopList : List Rule → Bool
  | [] => true
  | r :: rs => noSentinelStop r && noSentinelStopList rs

end

/-! ## Theorems about the codec -/

/-- C9 counterexample: a quantifier node whose `stop` field is the literal
`-1` (not the `INT_MAX` sentinel) is encoded as `-1` and decoded back to
`INT_MAX`, so `decode(encode(t))` is not structurally equal to `t`. -/
theorem codec_stop_minus_one_not_roundtrip :
    readFBRule (buildFBRule (.UnparserRuleQuantifier 0 0 (-1) []))
      = some (.UnparserRuleQuantifier 0 0 intMax [])
    ∧ Rule.UnparserRuleQuantifier 0 0 intMax []
        ≠ Rule.UnparserRuleQuantifier 0 0 (-1) [] := by
  refine ⟨rfl, ?_⟩
  simp [intMax]

mutual

/-- C9 (amended): for every tree in which no quantifier's `stop` field is the
literal `-1`, the FlatBuffers codec round-trips: every field of every variant
is restored (name, src, size, immutable for unlexer nodes; idx, start and
stop — with `INT_MAX` travelling as `-1` — for quantifiers; alt_idx and idx
for alternatives; names for unparser rules) and children round-trip pairwise
in order, so `decode(encode(t))` is structurally equal to `t`.  (A stored
`stop = -1` decodes to `INT_MAX` instead; see the counterexample.) -/
theorem readFBRule_buildFBRule (t : Rule) (h : noSentinelStop t = true) :
    readFBRule (buildFBRule t) = some t := by
  match t with
  | .UnlexerRule name src size imm =>
    show readFBRule ⟨0, name, src, size.depth, size.tokens, imm, 0, 0, 0, 0, []⟩
      = some (.UnlexerRule name src size imm)
    rfl
  | .UnparserRule name cs =>
    have hcs : noSentinelStopList cs = true := by
      have := h
      unfold noSentinelStop at this
      exact this
    have hl := readFBRuleList_buildFBRuleList cs hcs
    show readFBRule ⟨1, name, "", 0, 0, false, 0, 0, 0, 0, buildFBRuleList cs⟩
      = some (.UnparserRule name cs)
    unfold readFBRule
    rw [if_neg (by omega), if_pos rfl, hl]
    rfl
  | .UnparserRuleQuantifier idx start stop cs =>
    have hns := h
    unfold noSentinelStop at hns
    simp only [Bool.and_eq_true] at hns
    obtain ⟨h1, hcs⟩ := hns
    have hstop : stop ≠ -1 := by
      intro hx
      rw [if_pos hx] at h1
      exact Bool.noConfusion h1
    have hl := readFBRuleList_buildFBRuleList cs hcs
    show readFBRule ⟨2, "", "", 0, 0, false, idx, start,
        if stop = intMax then -1 else stop, 0, buildFBRuleList cs⟩
      = some (.UnparserRuleQuantifier idx start stop cs)
    unfold readFBRule
    rw [if_neg (by omega), if_neg (by omega), if_pos rfl, hl]
    by_cases hmax : stop = intMax
    · rw [if_pos hmax, if_pos rfl, hmax]
      rfl
    · rw [if_neg hmax, if_neg hstop]
      rfl
  | .UnparserRuleQuantified cs =>
    have hcs : noSentinelStopList cs = true := by
      have := h
      unfold noSentinelStop at this
      exact this
    have hl := readFBRuleList_buildFBRuleList cs hcs
    show readFBRule ⟨3, "", "", 0, 0, false, 0, 0, 0, 0, buildFBRuleList cs⟩
      = some (.UnparserRuleQuantified cs)
    unfold readFBRule
    rw [if_neg (by omega), if_neg (by omega), if_neg (by omega), if_pos rfl, hl]
    rfl
  | .UnparserRuleAlternative alt_idx idx cs =>
    have hcs : noSentinelStopList cs = true := by
      have := h
      unfold noSentinelStop at this
      exact this
    have hl := readFBRuleList_buildFBRuleList cs hcs
    show readFBRule ⟨4, "", "", 0, 0, false, idx, 0, 0, alt_idx, buildFBRuleList cs⟩
      = some (.UnparserRuleAlternative alt_idx idx cs)
    unfold readFBRule
    rw [if_neg (by omega), if_neg (by omega), if_neg (by omega), if_neg (by omega),
        if_pos rfl, hl]
    rfl

theorem readFBRuleList_buildFBRuleList (ts : List Rule) (h : noSentinelStopList ts = true) :
    readFBRuleList (buildFBRuleList ts) = some ts := by
  match ts with
  | [] => rfl
  | r :: rs =>
    have hh : noSentinelStop r = true ∧ noSentinelStopList rs = true := by
      have hx := h
      unfold noSentinelStopList at hx
      simp only [Bool.and_eq_true] at hx
      exact hx
    show readFBRuleList (buildFBRule r :: buildFBRuleList rs) = some (r :: rs)
    unfold readFBRuleList
    rw [readFBRule_buildFBRule r hh.1, readFBRuleList_buildFBRuleList rs hh.2]

end

/-- C9 witness: the round-trip theorem applied to a concrete tree exercising
every variant, including an open quantifier (`stop = INT_MAX`) and an
immutable unlexer leaf. -/
theorem readFBRule_buildFBRule_witness :
    readFBRule (buildFBRule (.UnparserRule "r"
        [.UnparserRuleAlternative 1 2
          [.UnparserRuleQuantifier 0 1 intMax
            [.UnparserRuleQuantified [.UnlexerRule "t" "x" ⟨1, 1⟩ true]]],
         .UnlexerRule "u" "y" ⟨2, 1⟩ false]))
      = some (.UnparserRule "r"
        [.UnparserRuleAlternative 1 2
          [.UnparserRuleQuantifier 0 1 intMax
            [.UnparserRuleQuantified [.UnlexerRule "t" "x" ⟨1, 1⟩ true]]],
         .UnlexerRule "u" "y" ⟨2, 1⟩ false]) :=
  readFBRule_buildFBRule _ rfl

/-! ## `Tool::swap_local_nodes` (tool/Tool.hpp, lines 529–594)

The mutator works on one tree through its `Annotations` index.  Nodes are
identified here by their path from the root (the list of child indices);
the parent chains the C++ walks correspond to the proper prefixes of a
path. -/

/-- A node address: the child indices from the root. -/
abbrev Path := List Nat

/-- The `children` vector of a node (`UnlexerRule` has none). -/
def childrenList : Rule → List Rule
  | .UnlexerRule .. => []
  | .UnparserRule _ cs => cs
  | .UnparserRuleQuantifier _ _ _ cs => cs
  | .UnparserRuleQuantified cs => cs
  | .UnparserRuleAlternative _ _ cs => cs

def isUnparserRule : Rule → Bool
  | .UnparserRule .. => true
  | _ => false

/-- The node at a path, if the path is valid. -/
def subtreeAt : Rule → Path → Option Rule
  | t, [] => some t
  | t, i :: p =>
    match (childrenList t).get? i with
    | some c => subtreeAt c p
    | none => none

/-- Rebuild a node with a new `children` vector (`UnlexerRule` unchanged). -/
def withChildren : Rule → List Rule → Rule
  | .UnlexerRule n s z im, _ => .UnlexerRule n s z im
  | .UnparserRule n _, cs => .UnparserRule n cs
  | .UnparserRuleQuantifier i a b _, cs => .UnparserRuleQuantifier i a b cs
  | .UnparserRuleQuantified _, cs => .UnparserRuleQuantified cs
  | .UnparserRuleAlternative a i _, cs => .UnparserRuleAlternative a i cs

/-- Replace the subtree at a path. -/
def replaceAt : Rule → Path → Rule → Option Rule
  | _, [], new => some new
  | t, i :: p, new =>
    match (childrenList t).get? i with
    | some c => (replaceAt c p new).map (fun c' => withChildren t ((childrenList t).set i c'))
    | none => none

/-- `Annotations::collect_info` level: the recorded `level` of the node at a
path is the number of `UnparserRule` nodes strictly above it (the traversal
passes `level + 1` to the children of an unparser rule and `level` to all
other children, starting from 0 at the root). -/
def levelAt : Rule → Path → Int → Option Int
  | _, [], lv => some lv
  | t, i :: p, lv =>
    match (childrenList t).get? i with
    | some c => levelAt c p (lv + if isUnparserRule t then 1 else 0)
    | none => none

mutual

/-- `Annotations::collect_info` depth and tokens of a subtree: an unlexer
node contributes its stored `size`; any other node the max of its children's
depths (plus one for an unparser rule) and the sum of their tokens. -/
def infoDepthTokens : Rule → Int × Int
  | .UnlexerRule _ _ size _ => (size.depth, size.tokens)
  | .UnparserRule _ cs =>
    let r := infoDepthTokensList cs
    (r.1 + 1, r.2)
  | .UnparserRuleQuantifier _ _ _ cs => infoDepthTokensList cs
  | .UnparserRuleQuantified cs => infoDepthTokensList cs
  | .UnparserRuleAlternative _ _ cs => infoDepthTokensList cs

def infoDepthTokensList : List Rule → Int × Int
  | [] => (0, 0)
  | r :: rs =>
    let a := infoDepthTokens r
    let b := infoDepthTokensList rs
    (if a.1 > b.1 then a.1 else b.1, a.2 + b.2)

end

mutual

/-- `Rule::TokenIterator`: the sequence of non-empty `src` strings over the
unlexer leaves, in left-to-right order (`Rule::equalTokens` compares them
pairwise). -/
def tokensOf : Rule → List String
  | .UnlexerRule _ src _ _ => if src = "" then [] else [src]
  | .UnparserRule _ cs => tokensOfList cs
  | .UnparserRuleQuantifier _ _ _ cs => tokensOfList cs
  | .UnparserRuleQuantified cs => tokensOfList cs
  | .UnparserRuleAlternative _ _ cs => tokensOfList cs

def tokensOfList : List Rule → List String
  | [] => []
  | r :: rs => tokensOf r ++ tokensOfList rs

end

/-- `Annotations::NodeKey`: `(name, kind, idx)` with kind tags `RuleKey = 0`,
`QuantifiedKey = 1`, `QuantifierKey = 2`, `AlternativeKey = 3` (the source
enum order). -/
structure NodeKey where
  name : String
  kind : Nat
  idx : Int
deriving DecidableEq, Repr

mutual

/-- `Annotations::collect_nodes` on one node: a mutable rule node other than
the root (and not `<ROOT>`/`<INVALID>`) is keyed by its name; an
alternative/quantifier/quantified node inside some unparser rule is keyed by
the enclosing rule name, its kind, and its (parent's, for quantified) index.
`curRule` is `current_rule_name`, `pqIdx` the parent quantifier's `idx`. -/
def collectGo : Bool → Rule → Path → Option String → Int → List (NodeKey × Path)
  | isRoot, .UnlexerRule n _ _ imm, path, _, _ =>
    if ¬ isRoot ∧ n ≠ "<INVALID>" ∧ n ≠ "<ROOT>" ∧ ¬ imm then [(⟨n, 0, 0⟩, path)] else []
  | isRoot, .UnparserRule n cs, path, _, _ =>
    (if ¬ isRoot ∧ n ≠ "<INVALID>" ∧ n ≠ "<ROOT>" then [(⟨n, 0, 0⟩, path)] else [])
      ++ collectGoList cs 0 path (some n) 0
  | _, .UnparserRuleAlternative a _ cs, path, curRule, _ =>
    (match curRule with | some rn => [(⟨rn, 3, a⟩, path)] | none => [])
      ++ collectGoList cs 0 path curRule 0
  | _, .UnparserRuleQuantifier i _ _ cs, path, curRule, _ =>
    (match curRule with | some rn => [(⟨rn, 2, i⟩, path)] | none => [])
      ++ collectGoList cs 0 path curRule i
  | _, .UnparserRuleQuantified cs, path, curRule, pqIdx =>
    (match curRule with | some rn => [(⟨rn, 1, pqIdx⟩, path)] | none => [])
      ++ collectGoList cs 0 path curRule 0

def collectGoList : List Rule → Nat → Path → Option String → Int → List (NodeKey × Path)
  | [], _, _, _, _ => []
  | c :: cs, i, path, curRule, pqIdx =>
    collectGo false c (path ++ [i]) curRule pqIdx ++ collectGoList cs (i + 1) path curRule pqIdx

end

/-- All `(NodeKey, path)` pairs of `Annotations::nodes_by_name`, in preorder
(the C++ groups them into a `std::map` of buckets). -/
def collectNodes (root : Rule) : List (NodeKey × Path) :=
  collectGo true root [] none 0

/-- `p` addresses a proper ancestor of `q` (one of `q`'s parent-chain
nodes). -/
def ancestorPath (p q : Path) : Bool :=
  decide (p.length < q.length) && decide (q.take p.length = p)

/-- The inner guard of `swap_local_nodes` on a candidate pair: the pair is
skipped iff `first.level + second.depth > limit.depth` AND
`second.level + first.depth > limit.depth` (the source condition, verbatim),
or the two nodes have equal token sequences, or one is an ancestor of the
other (both upward chains are checked); invalid paths never match. -/
def pairAccepted (root : Rule) (limitDepth : Int) (p1 p2 : Path) : Bool :=
  match subtreeAt root p1, subtreeAt root p2, levelAt root p1 0, levelAt root p2 0 with
  | some n1, some n2, some l1, some l2 =>
    if l1 + (infoDepthTokens n2).1 > limitDepth ∧ l2 + (infoDepthTokens n1).1 > limitDepth then
      false
    else if tokensOf n1 = tokensOf n2 then false
    else if ancestorPath p2 p1 ∨ ancestorPath p1 p2 then false
    else true
  | _, _, _, _ => false

def findPairFrom (root : Rule) (limitDepth : Int) (p : Path) : List Path → Option (Path × Path)
  | [] => none
  | q :: qs =>
    if pairAccepted root limitDepth p q then some (p, q)
    else findPairFrom root limitDepth p qs

def findPairInGroup (root : Rule) (limitDepth : Int) : List Path → Option (Path × Path)
  | [] => none
  | p :: ps =>
    match findPairFrom root limitDepth p ps with
    | some pr => some pr
    | none => findPairInGroup root limitDepth ps

/-- The pair-search of `swap_local_nodes`: iterate the shuffled buckets
(`groups` is the post-shuffle enumeration order, a parameter standing for
the random shuffles) and inside each bucket the double loop over index pairs
`i < j`; the first accepted pair wins. -/
def swapFindPair (root : Rule) (limitDepth : Int) : List (List Path) → Option (Path × Path)
  | [] => none
  | g :: gs =>
    match findPairInGroup root limitDepth g with
    | some pr => some pr
    | none => swapFindPair root limitDepth gs

/-- `Tool::swap_local_nodes`: find an accepted pair and swap the two subtrees
in place (the two pointer splices; on disjoint paths they amount to the two
path substitutions).  Returns the new tree, or nothing when no pair is
accepted. -/
def swap_local_nodes (root : Rule) (limitDepth : Int) (groups : List (List Path)) :
    Option Rule :=
  match swapFindPair root limitDepth groups with
  | some (p1, p2) =>
    match subtreeAt root p1, subtreeAt root p2 with
    | some n1, some n2 => (replaceAt root p1 n2).bind (fun r => replaceAt r p2 n1)
    | _, _ => none
  | none => none

/-- A tree with two rule nodes named `x`: a shallow one `[0]` carrying a deep
subtree (depth 4), and a deep one `[1, 0, 0]` (level 3) carrying a shallow
subtree (depth 2). -/
def swapDemoTree : Rule :=
  .UnparserRule "r"
    [.UnparserRule "x"
      [.UnparserRule "c1" [.UnparserRule "c2" [.UnlexerRule "a" "a" ⟨1, 1⟩ false]]],
     .UnparserRule "d1"
      [.UnparserRule "d2" [.UnparserRule "x" [.UnlexerRule "b" "b" ⟨1, 1⟩ false]]]]

/-- `swapDemoTree` with the two `x` subtrees exchanged. -/
def swapDemoSwapped : Rule :=
  .UnparserRule "r"
    [.UnparserRule "x" [.UnlexerRule "b" "b" ⟨1, 1⟩ false],
     .UnparserRule "d1"
      [.UnparserRule "d2"
        [.UnparserRule "x"
          [.UnparserRule "c1" [.UnparserRule "c2" [.UnlexerRule "a" "a" ⟨1, 1⟩ false]]]]]]

/-- C2: the depth guard of `swap_local_nodes` joins its two checks with `&&`
(Tool.hpp:559-560), so a candidate pair is skipped only when *both*
placements exceed `limit.depth`.  On `swapDemoTree` with `limit.depth = 4`,
the only key with two instances is `x`, with nodes at `[0]` (level 1,
depth 4) and `[1, 0, 0]` (level 3, depth 2); since `1 + 2 = 3 ≤ 4` the pair
is accepted and swapped even though
`max(a.level + b.depth, b.level + a.depth) = 3 + 4 = 7 > 4` — the claim's
bound is violated, and the resulting tree has depth `7 > limit.depth`,
contradicting budget safety (P6). -/
theorem swap_local_nodes_depth_guard_bug :
    collectNodes swapDemoTree
      = [(⟨"x", 0, 0⟩, [0]), (⟨"c1", 0, 0⟩, [0, 0]), (⟨"c2", 0, 0⟩, [0, 0, 0]),
         (⟨"a", 0, 0⟩, [0, 0, 0, 0]), (⟨"d1", 0, 0⟩, [1]), (⟨"d2", 0, 0⟩, [1, 0]),
         (⟨"x", 0, 0⟩, [1, 0, 0]), (⟨"b", 0, 0⟩, [1, 0, 0, 0])]
    ∧ swapFindPair swapDemoTree 4 [[[0], [1, 0, 0]]] = some ([0], [1, 0, 0])
    ∧ levelAt swapDemoTree [0] 0 = some 1
    ∧ levelAt swapDemoTree [1, 0, 0] 0 = some 3
    ∧ (subtreeAt swapDemoTree [0]).map (fun n => (infoDepthTokens n).1) = some 4
    ∧ (subtreeAt swapDemoTree [1, 0, 0]).map (fun n => (infoDepthTokens n).1) = some 2
    ∧ max ((1 : Int) + 2) (3 + 4) > 4
    ∧ swap_local_nodes swapDemoTree 4 [[[0], [1, 0, 0]]] = some swapDemoSwapped
    ∧ (infoDepthTokens swapDemoSwapped).1 = 7 := by
  refine ⟨rfl, rfl, rfl, rfl, rfl, rfl, by norm_num, rfl, rfl⟩

/-! ## The delta-debugging trimmers (libgrafl/trimmer.hpp)

`ConfigTrimmer<T>` instantiated at `T = ℕ`: a configuration (`std::set<T>`)
is a `Finset ℕ`, the configuration cache (`std::set<config_type>`) a
`Finset (Finset ℕ)`, the link map an association list sorted by key.
`std::set` iterates in ascending order; `toAsc` enumerates a `Finset ℕ` the
same way (repeated minimum extraction).  The two unbounded loops (`next()`'s
`while (true)` and the worklist of `unlink()`) take an explicit fuel;
exhausted fuel reports "no next configuration", which only ever truncates a
run (`unlink`'s fuel is chosen below so that it never runs out). -/

namespace Trim

/-- Ascending enumeration of a finite set of naturals (the iteration order of
`std::set`). -/
def toAscGo : ℕ → Finset ℕ → List ℕ
  | 0, _ => []
  | n + 1, s =>
    if h : s.Nonempty then s.min' h :: toAscGo n (s.erase (s.min' h)) else []

def toAsc (s : Finset ℕ) : List ℕ := toAscGo s.card s

/-- The state of a `ConfigTrimmer`: `config_`, `links_`, `subsets_`, `i_`,
`next_config_`, `config_cache_`. -/
structure CTState where
  config : Finset ℕ
  links : List (ℕ × Finset ℕ)
  subsets : List (Finset ℕ)
  i : ℕ
  nextConfig : Finset ℕ
  cache : Finset (Finset ℕ)

/-- The distribution loop of `split()`: walk the configuration in ascending
order, inserting each element into `subsets_[j]`; after each element advance
`d` by `n` and move to the next subset when `d` reaches `size`. -/
def splitGo (n size : ℕ) : List ℕ → List (Finset ℕ) → ℕ → ℕ → List (Finset ℕ)
  | [], subs, _, _ => subs
  | c :: cs, subs, d, j =>
    let subs' := subs.set j (insert c (subs.getD j ∅))
    if size ≤ d + n then splitGo n size cs subs' (d + n - size) (j + 1)
    else splitGo n size cs subs' (d + n) j

/-- `ConfigTrimmer::split()`: re-split `config_` into
`min(size, 2 * subsets_.size())` round-robin subsets and reset `i_`. -/
def CTState.split (st : CTState) : CTState :=
  let size := st.config.card
  let n := min size (st.subsets.length * 2)
  { st with
    subsets := splitGo n size (toAsc st.config) (List.replicate n ∅) 0 0,
    i := 0 }

/-- One pass over the linked set of a popped unit `e`: erase each linked
element from the candidate (ascending order), pushing every freshly erased
element that is itself a link key onto the worklist. -/
def unlinkStep (links : List (ℕ × Finset ℕ)) (e : ℕ) (cand : Finset ℕ)
    (work : List ℕ) : Finset ℕ × List ℕ :=
  let linked := (((links.find? (fun kv => kv.1 = e)).map (fun kv => kv.2)).getD ∅)
  (toAsc linked).foldl
    (fun acc x =>
      if x ∈ acc.1 ∧ (links.any (fun kv => kv.1 = x)) = true then (acc.1.erase x, x :: acc.2)
      else (acc.1.erase x, acc.2))
    (cand, work)

/-- The worklist loop of `unlink()` (`pop_back` pops the head here). -/
def unlinkGo (links : List (ℕ × Finset ℕ)) : ℕ → List ℕ → Finset ℕ → Finset ℕ
  | 0, _, cand => cand
  | _, [], cand => cand
  | fuel + 1, e :: work, cand =>
    let r := unlinkStep links e cand work
    unlinkGo links fuel r.2 r.1

/-- `ConfigTrimmer::unlink()`: seed the worklist with every link key missing
from the candidate (pushed in ascending key order, popped from the back) and
run the closure.  The fuel bounds the total pops: at most one initial push
per key plus one push per erased element, so it never runs out. -/
def unlink (links : List (ℕ × Finset ℕ)) (cand : Finset ℕ) : Finset ℕ :=
  unlinkGo links (links.length + cand.card + 1)
    (((links.map (fun kv => kv.1)).filter (fun e => e ∉ cand)).reverse) cand

/-- The complement candidate: the union of all subsets except `subsets_[j]`. -/
def complementOf (subs : List (Finset ℕ)) (j : ℕ) : Finset ℕ :=
  (List.range subs.length).foldl
    (fun acc k => if k ≠ j then acc ∪ subs.getD k ∅ else acc) ∅

/-- The candidate at the current cursor, before link propagation: subset
`i_` for `i_ < n`, the complement of subset `i_ - n` for `n ≤ i_ < 2n`. -/
def candAt (st : CTState) : Finset ℕ :=
  if st.i < st.subsets.length then st.subsets.getD st.i ∅
  else complementOf st.subsets (st.i - st.subsets.length)

/-- The `while (true)` loop of `ConfigTrimmer::next()`: emit the cursor's
candidate after link propagation, skipping cached candidates; when `i_` runs
out, re-split while the subsets are not yet singletons, else report
"done". -/
def CTState.nextGo : ℕ → CTState → Bool × CTState
  | 0, st => (false, st)
  | fuel + 1, st =>
    if st.i < 2 * st.subsets.length then
      if unlink st.links (candAt st) ∈ st.cache then
        CTState.nextGo fuel { st with nextConfig := unlink st.links (candAt st), i := st.i + 1 }
      else (true, { st with nextConfig := unlink st.links (candAt st) })
    else if st.subsets.length < st.config.card then CTState.nextGo fuel st.split
    else (false, st)

/-- `ConfigTrimmer::next()`: nothing to do on configurations smaller than 2;
split first when the configuration has not been split yet. -/
def CTState.next (fuel : ℕ) (st : CTState) : Bool × CTState :=
  if st.config.card < 2 then (false, st)
  else
    let st := if st.subsets.length < 2 then st.split else st
    CTState.nextGo fuel st

/-- `ConfigTrimmer::init(config, links)`: reset the state and precompute the
first candidate; the boolean is `init`'s return value (`1` iff a candidate
exists). -/
def ctInit (fuel : ℕ) (config : Finset ℕ) (links : List (ℕ × Finset ℕ)) :
    Bool × CTState :=
  CTState.next fuel ⟨config, links, [config], 0, ∅, ∅⟩

/-- `ConfigTrimmer::post(success)`: on success evict every cache entry of
size `≥ |candidate|`, make the candidate the current configuration and reset
the partition; on failure cache the candidate and advance `i_`.  Then
precompute the next candidate; the boolean is true iff `post` returned `1`
("done"). -/
def CTState.post (fuel : ℕ) (st : CTState) (success : Bool) : Bool × CTState :=
  if success then
    let st := { st with
      cache := st.cache.filter (fun c => c.card < st.nextConfig.card),
      config := st.nextConfig,
      subsets := [st.nextConfig] }
    let r := CTState.next fuel st
    (!r.1, r.2)
  else
    let st := { st with cache := insert st.nextConfig st.cache, i := st.i + 1 }
    let r := CTState.next fuel st
    (!r.1, r.2)

/-- A run of the `trim`/`post` protocol: each step returns the precomputed
candidate (`trim()` is a read of `next_config_`), then feeds the next oracle
verdict to `post`; the run ends when `post` reports "done" or the verdict
list is exhausted.  Returns the configurations handed out by `trim`. -/
def ctRunGo (fuel : ℕ) : List Bool → CTState → List (Finset ℕ)
  | [], _ => []
  | b :: bs, st =>
    let r := CTState.post fuel st b
    st.nextConfig :: (if r.1 then [] else ctRunGo fuel bs r.2)

/-- A full run from `init`: no candidates are handed out when `init`
returns 0. -/
def ctRun (fuel : ℕ) (config : Finset ℕ) (links : List (ℕ × Finset ℕ))
    (bs : List Bool) : List (Finset ℕ) :=
  let r := ctInit fuel config links
  if r.1 then ctRunGo fuel bs r.2 else []

/-! ### `ContentTrimmer` (trimmer.hpp, lines 205–280)

`ContentTrimmer<T, O, H>` at `T = ℕ`, `O = List ℕ` (the serialized content;
`O::size()` is its length), `H = ℕ`.  The serializer and hasher are the
injected `std::function`s.  The content cache (`std::map<H, int>`) is an
association list; `emplace` appends (its key is never present when it runs,
as `next()` only emits contents whose hash is uncached). -/

/-- The state of a `ContentTrimmer`: the inner trimmer, `next_config_`,
`next_content_` and `content_cache_`. -/
structure CWState where
  ct : CTState
  nextConfig : Finset ℕ
  nextContent : List ℕ
  contentCache : List (ℕ × ℕ)

/-- Lookup in `content_cache_`. -/
def lookupCC (cc : List (ℕ × ℕ)) (h : ℕ) : Option ℕ :=
  (cc.find? (fun kv => kv.1 = h)).map (fun kv => kv.2)

/-- `ContentTrimmer::next()`: serialize the inner trimmer's candidate; on a
content-cache hit, post a failure to the inner trimmer (without consulting
the oracle) and try again. -/
def cwNext (σ : Finset ℕ → List ℕ) (hf : List ℕ → ℕ) (ctfuel : ℕ) :
    ℕ → CWState → Bool × CWState
  | 0, st => (false, st)
  | fuel + 1, st =>
    let cfg := st.ct.nextConfig
    let st := { st with nextConfig := cfg, nextContent := σ cfg }
    if (lookupCC st.contentCache (hf st.nextContent)).isSome then
      let r := CTState.post ctfuel st.ct false
      if r.1 then (false, { st with ct := r.2 })
      else cwNext σ hf ctfuel fuel { st with ct := r.2 }
    else (true, st)

/-- `ContentTrimmer::init`. -/
def cwInit (σ : Finset ℕ → List ℕ) (hf : List ℕ → ℕ) (ctfuel cwfuel : ℕ)
    (config : Finset ℕ) (links : List (ℕ × Finset ℕ)) : Bool × CWState :=
  let r := ctInit ctfuel config links
  if r.1 then cwNext σ hf ctfuel cwfuel ⟨r.2, ∅, [], []⟩
  else (false, ⟨r.2, ∅, [], []⟩)

/-- `ContentTrimmer::post(success)`: on success evict every content-cache
entry whose recorded size is strictly greater than the current content size;
on failure record the current content's hash and size.  Then forward the
verdict to the inner trimmer and precompute the next content. -/
def cwPost (σ : Finset ℕ → List ℕ) (hf : List ℕ → ℕ) (ctfuel cwfuel : ℕ)
    (st : CWState) (success : Bool) : Bool × CWState :=
  let size := st.nextContent.length
  let st :=
    if success then { st with contentCache := st.contentCache.filter (fun kv => ¬ size < kv.2) }
    else { st with contentCache := st.contentCache ++ [(hf st.nextContent, size)] }
  let r := CTState.post ctfuel st.ct success
  if r.1 then (true, { st with ct := r.2 })
  else
    let r2 := cwNext σ hf ctfuel cwfuel { st with ct := r.2 }
    (!r2.1, r2.2)

/-- A run of the `ContentTrimmer` protocol, returning the pairs
(content handed out by `trim`, oracle verdict fed to `post`). -/
def cwRunGo (σ : Finset ℕ → List ℕ) (hf : List ℕ → ℕ) (ctfuel cwfuel : ℕ) :
    List Bool → CWState → List (List ℕ × Bool)
  | [], _ => []
  | b :: bs, st =>
    let r := cwPost σ hf ctfuel cwfuel st b
    (st.nextContent, b) :: (if r.1 then [] else cwRunGo σ hf ctfuel cwfuel bs r.2)

/-- A full `ContentTrimmer` run from `init`. -/
def cwRun (σ : Finset ℕ → List ℕ) (hf : List ℕ → ℕ) (ctfuel cwfuel : ℕ)
    (config : Finset ℕ) (links : List (ℕ × Finset ℕ)) (bs : List Bool) :
    List (List ℕ × Bool) :=
  let r := cwInit σ hf ctfuel cwfuel config links
  if r.1 then cwRunGo σ hf ctfuel cwfuel bs r.2 else []

/-! ### Basic facts about the building blocks -/

theorem toAscGo_spec : ∀ (n : ℕ) (s : Finset ℕ), s.card = n →
    (toAscGo n s).length = n ∧ (toAscGo n s).Nodup ∧ ∀ x, x ∈ toAscGo n s ↔ x ∈ s := by
  intro n
  induction n with
  | zero =>
    intro s hs
    have : s = ∅ := Finset.card_eq_zero.mp hs
    subst this
    refine ⟨rfl, List.nodup_nil, ?_⟩
    intro x
    simp [toAscGo]
  | succ n ih =>
    intro s hs
    have hne : s.Nonempty := Finset.card_pos.mp (by omega)
    have hms : s.min' hne ∈ s := Finset.min'_mem s hne
    have hcard : (s.erase (s.min' hne)).card = n := by
      rw [Finset.card_erase_of_mem hms, hs]
      omega
    have ihm := ih (s.erase (s.min' hne)) hcard
    have hgo : toAscGo (n + 1) s = s.min' hne :: toAscGo n (s.erase (s.min' hne)) := by
      show (if h : s.Nonempty then s.min' h :: toAscGo n (s.erase (s.min' h)) else []) = _
      rw [dif_pos hne]
    rw [hgo]
    refine ⟨by simp [ihm.1], ?_, ?_⟩
    · refine List.nodup_cons.mpr ⟨?_, ihm.2.1⟩
      intro hmem
      have hx := (ihm.2.2 (s.min' hne)).mp hmem
      exact absurd hx (by simp)
    · intro x
      rw [List.mem_cons, ihm.2.2 x, Finset.mem_erase]
      constructor
      · rintro (rfl | ⟨-, hx⟩)
        · exact hms
        · exact hx
      · intro hx
        by_cases hxm : x = s.min' hne
        · exact Or.inl hxm
        · exact Or.inr ⟨hxm, hx⟩

theorem toAsc_length (s : Finset ℕ) : (toAsc s).length = s.card :=
  (toAscGo_spec s.card s rfl).1

theorem toAsc_nodup (s : Finset ℕ) : (toAsc s).Nodup :=
  (toAscGo_spec s.card s rfl).2.1

theorem mem_toAsc (s : Finset ℕ) (x : ℕ) : x ∈ toAsc s ↔ x ∈ s :=
  (toAscGo_spec s.card s rfl).2.2 x

theorem getD_replicate (n k : ℕ) : (List.replicate n (∅ : Finset ℕ)).getD k ∅ = ∅ := by
  induction n generalizing k with
  | zero => cases k <;> rfl
  | succ m ih =>
    cases k with
    | zero => rfl
    | succ k' => exact ih k'

/-- A list of subsets forms an ordered partition of a configuration: all
nonempty, within the configuration, jointly covering it, and pairwise
disjoint (out-of-range reads default to `∅`). -/
structure PartitionOf (subs : List (Finset ℕ)) (cfg : Finset ℕ) : Prop where
  nonemptyAt : ∀ k, k < subs.length → subs.getD k ∅ ≠ ∅
  subsetAt : ∀ k, subs.getD k ∅ ⊆ cfg
  covers : ∀ x ∈ cfg, ∃ k, k < subs.length ∧ x ∈ subs.getD k ∅
  disjAt : ∀ k1 k2, k1 < k2 → Disjoint (subs.getD k1 ∅) (subs.getD k2 ∅)

theorem mem_range_foldl_union (n j : ℕ) (subs : List (Finset ℕ)) (x : ℕ) :
    x ∈ (List.range n).foldl (fun acc k => if k ≠ j then acc ∪ subs.getD k ∅ else acc) ∅
      ↔ ∃ k, k < n ∧ k ≠ j ∧ x ∈ subs.getD k ∅ := by
  have main : ∀ (m : ℕ) (init : Finset ℕ),
      x ∈ (List.range m).foldl (fun acc k => if k ≠ j then acc ∪ subs.getD k ∅ else acc) init
        ↔ x ∈ init ∨ ∃ k, k < m ∧ k ≠ j ∧ x ∈ subs.getD k ∅ := by
    intro m
    induction m with
    | zero =>
      intro init
      simp
    | succ m ih =>
      intro init
      rw [List.range_succ, List.foldl_append]
      simp only [List.foldl_cons, List.foldl_nil]
      by_cases hj : m ≠ j
      · rw [if_pos hj, Finset.mem_union, ih init]
        constructor
        · rintro ((h | ⟨k, hk, hkj, hx⟩) | h)
          · exact Or.inl h
          · exact Or.inr ⟨k, by omega, hkj, hx⟩
          · exact Or.inr ⟨m, by omega, hj, h⟩
        · rintro (h | ⟨k, hk, hkj, hx⟩)
          · exact Or.inl (Or.inl h)
          · by_cases hkm : k = m
            · subst hkm
              exact Or.inr hx
            · exact Or.inl (Or.inr ⟨k, by omega, hkj, hx⟩)
      · rw [if_neg hj, ih init]
        have hmj : m = j := by omega
        constructor
        · rintro (h | ⟨k, hk, hkj, hx⟩)
          · exact Or.inl h
          · exact Or.inr ⟨k, by omega, hkj, hx⟩
        · rintro (h | ⟨k, hk, hkj, hx⟩)
          · exact Or.inl h
          · have hkm : k ≠ m := fun hh => hkj (hh.trans hmj)
            exact Or.inr ⟨k, by omega, hkj, hx⟩
  rw [main n ∅]
  simp

theorem mem_complementOf (subs : List (Finset ℕ)) (j x : ℕ) :
    x ∈ complementOf subs j ↔ ∃ k, k < subs.length ∧ k ≠ j ∧ x ∈ subs.getD k ∅ := by
  unfold complementOf
  exact mem_range_foldl_union subs.length j subs x

/-- The round-robin distribution of `split()` produces `n` nonempty,
pairwise-disjoint subsets that exactly cover the distributed elements,
provided the arithmetic invariant of the loop holds (`d + j·size = p·n`
with `p` elements already placed). -/
theorem splitGo_spec (n size : ℕ) (hn : 0 < n) (hns : n ≤ size) :
    ∀ (l : List ℕ) (subs : List (Finset ℕ)) (d j p : ℕ),
      subs.length = n →
      p + l.length = size →
      d + j * size = p * n →
      d < size →
      l.Nodup →
      (∀ k, k < j → subs.getD k ∅ ≠ ∅) →
      (∀ k, j < k → subs.getD k ∅ = ∅) →
      (∀ x ∈ l, ∀ k, x ∉ subs.getD k ∅) →
      (∀ k1 k2, k1 < k2 → Disjoint (subs.getD k1 ∅) (subs.getD k2 ∅)) →
      (splitGo n size l subs d j).length = n
        ∧ (∀ k, k < n → (splitGo n size l subs d j).getD k ∅ ≠ ∅)
        ∧ (∀ x, (∃ k, x ∈ (splitGo n size l subs d j).getD k ∅)
            ↔ (x ∈ l ∨ ∃ k, x ∈ subs.getD k ∅))
        ∧ (∀ k1 k2, k1 < k2 →
            Disjoint ((splitGo n size l subs d j).getD k1 ∅)
              ((splitGo n size l subs d j).getD k2 ∅)) := by
  intro l
  induction l with
  | nil =>
    intro subs d j p hlen hp harith hd hnd hne hemp hfresh hdisj
    have hsize : 0 < size := lt_of_lt_of_le hn hns
    have hplen : p + 0 = size := by simpa using hp
    have hpsize : p = size := by omega
    have hjn : n ≤ j := by
      by_contra hlt
      push_neg at hlt
      have h1 : j * size ≤ (n - 1) * size := Nat.mul_le_mul_right size (by omega)
      have h2 : size + (n - 1) * size = size * n := by
        have hn1 : 1 + (n - 1) = n := by omega
        calc size + (n - 1) * size = size * (1 + (n - 1)) := by ring
          _ = size * n := by rw [hn1]
      have h3 : p * n = size * n := by rw [hpsize]
      omega
    refine ⟨hlen, ?_, ?_, hdisj⟩
    · intro k hk
      exact hne k (by omega)
    · intro x
      simp [splitGo]
  | cons c cs ih =>
    intro subs d j p hlen hp harith hd hnd hne hemp hfresh hdisj
    have hsize : 0 < size := lt_of_lt_of_le hn hns
    have hplen : p + (cs.length + 1) = size := by simpa using hp
    have hjn : j < n := by
      by_contra hge
      push_neg at hge
      have h1 : n * size ≤ j * size := Nat.mul_le_mul_right size hge
      have h2 : p * n ≤ (size - 1) * n := Nat.mul_le_mul_right n (by omega)
      have h3 : (size - 1) * n + n = size * n := by
        have hs1 : size - 1 + 1 = size := by omega
        calc (size - 1) * n + n = ((size - 1) + 1) * n := by ring
          _ = size * n := by rw [hs1]
      have h4 : n * size = size * n := Nat.mul_comm n size
      omega
    have hjlen : j < subs.length := by omega
    have hgetself : ∀ k, (subs.set j (insert c (subs.getD j ∅))).getD k ∅
        = if k = j then insert c (subs.getD j ∅) else subs.getD k ∅ := by
      intro k
      by_cases hk : k = j
      · subst hk
        rw [if_pos rfl, getD_set_self _ _ _ _ hjlen]
      · rw [if_neg hk, getD_set_ne _ _ _ _ _ (fun hh => hk hh.symm)]
    have hlen' : (subs.set j (insert c (subs.getD j ∅))).length = n := by
      simpa using hlen
    have hnd' : cs.Nodup := hnd.of_cons
    have hcns : c ∉ cs := (List.nodup_cons.mp hnd).1
    have hfresh' : ∀ x ∈ cs, ∀ k, x ∉ (subs.set j (insert c (subs.getD j ∅))).getD k ∅ := by
      intro x hx k
      rw [hgetself k]
      by_cases hkj : k = j
      · rw [if_pos hkj]
        intro hmem
        rcases Finset.mem_insert.mp hmem with h | h
        · exact hcns (h ▸ hx)
        · exact hfresh x (List.mem_cons_of_mem c hx) j h
      · rw [if_neg hkj]
        exact hfresh x (List.mem_cons_of_mem c hx) k
    have hdisj' : ∀ k1 k2, k1 < k2 →
        Disjoint ((subs.set j (insert c (subs.getD j ∅))).getD k1 ∅)
          ((subs.set j (insert c (subs.getD j ∅))).getD k2 ∅) := by
      intro k1 k2 hk
      rw [hgetself k1, hgetself k2]
      by_cases h1 : k1 = j
      · subst h1
        rw [if_pos rfl, if_neg (by omega)]
        rw [Finset.disjoint_insert_left]
        exact ⟨hfresh c (List.mem_cons_self c cs) k2, hdisj k1 k2 hk⟩
      · rw [if_neg h1]
        by_cases h2 : k2 = j
        · subst h2
          rw [if_pos rfl, Finset.disjoint_insert_right]
          exact ⟨hfresh c (List.mem_cons_self c cs) k1, hdisj k1 k2 hk⟩
        · rw [if_neg h2]
          exact hdisj k1 k2 hk
    have hbridge : ∀ x, (x ∈ cs ∨ ∃ k, x ∈ (subs.set j (insert c (subs.getD j ∅))).getD k ∅)
        ↔ (x ∈ c :: cs ∨ ∃ k, x ∈ subs.getD k ∅) := by
      intro x
      constructor
      · rintro (hx | ⟨k, hk⟩)
        · exact Or.inl (List.mem_cons_of_mem c hx)
        · rw [hgetself k] at hk
          by_cases hkj : k = j
          · rw [if_pos hkj] at hk
            rcases Finset.mem_insert.mp hk with rfl | hk2
            · exact Or.inl (List.mem_cons_self x cs)
            · exact Or.inr ⟨j, hk2⟩
          · rw [if_neg hkj] at hk
            exact Or.inr ⟨k, hk⟩
      · rintro (hx | ⟨k, hk⟩)
        · rcases List.mem_cons.mp hx with rfl | hx2
          · refine Or.inr ⟨j, ?_⟩
            rw [hgetself j, if_pos rfl]
            exact Finset.mem_insert_self _ _
          · exact Or.inl hx2
        · by_cases hkj : k = j
          · subst hkj
            refine Or.inr ⟨k, ?_⟩
            rw [hgetself k, if_pos rfl]
            exact Finset.mem_insert_of_mem hk
          · refine Or.inr ⟨k, ?_⟩
            rw [hgetself k, if_neg hkj]
            exact hk
    by_cases hbr : size ≤ d + n
    · have heq : splitGo n size (c :: cs) subs d j
          = splitGo n size cs (subs.set j (insert c (subs.getD j ∅))) (d + n - size) (j + 1) := by
        show (if size ≤ d + n
            then splitGo n size cs (subs.set j (insert c (subs.getD j ∅))) (d + n - size) (j + 1)
            else splitGo n size cs (subs.set j (insert c (subs.getD j ∅))) (d + n) j)
          = _
        rw [if_pos hbr]
      have harith' : (d + n - size) + (j + 1) * size = (p + 1) * n := by
        have e1 : (j + 1) * size = j * size + size := by ring
        have e2 : (p + 1) * n = p * n + n := by ring
        omega
      have hne' : ∀ k, k < j + 1 → (subs.set j (insert c (subs.getD j ∅))).getD k ∅ ≠ ∅ := by
        intro k hk
        rw [hgetself k]
        by_cases hkj : k = j
        · rw [if_pos hkj]
          exact Finset.insert_ne_empty _ _
        · rw [if_neg hkj]
          exact hne k (by omega)
      have hemp' : ∀ k, j + 1 < k → (subs.set j (insert c (subs.getD j ∅))).getD k ∅ = ∅ := by
        intro k hk
        rw [hgetself k, if_neg (by omega)]
        exact hemp k (by omega)
      have hres := ih (subs.set j (insert c (subs.getD j ∅))) (d + n - size) (j + 1) (p + 1)
        hlen' (by omega : (p + 1) + cs.length = size) harith' (by omega)
        hnd' hne' hemp' hfresh' hdisj'
      rw [heq]
      refine ⟨hres.1, hres.2.1, ?_, hres.2.2.2⟩
      intro x
      exact (hres.2.2.1 x).trans (hbridge x)
    · have heq : splitGo n size (c :: cs) subs d j
          = splitGo n size cs (subs.set j (insert c (subs.getD j ∅))) (d + n) j := by
        show (if size ≤ d + n
            then splitGo n size cs (subs.set j (insert c (subs.getD j ∅))) (d + n - size) (j + 1)
            else splitGo n size cs (subs.set j (insert c (subs.getD j ∅))) (d + n) j)
          = _
        rw [if_neg hbr]
      have harith' : (d + n) + j * size = (p + 1) * n := by
        have e2 : (p + 1) * n = p * n + n := by ring
        omega
      have hne' : ∀ k, k < j → (subs.set j (insert c (subs.getD j ∅))).getD k ∅ ≠ ∅ := by
        intro k hk
        rw [hgetself k, if_neg (by omega)]
        exact hne k hk
      have hemp' : ∀ k, j < k → (subs.set j (insert c (subs.getD j ∅))).getD k ∅ = ∅ := by
        intro k hk
        rw [hgetself k, if_neg (by omega)]
        exact hemp k hk
      have hres := ih (subs.set j (insert c (subs.getD j ∅))) (d + n) j (p + 1)
        hlen' (by omega : (p + 1) + cs.length = size) harith' (by omega)
        hnd' hne' hemp' hfresh' hdisj'
      rw [heq]
      refine ⟨hres.1, hres.2.1, ?_, hres.2.2.2⟩
      intro x
      exact (hres.2.2.1 x).trans (hbridge x)

/-- `split()` on a configuration of size ≥ 2 with at least one previous
subset yields a partition into at least two subsets and leaves everything
else untouched. -/
theorem split_spec (st : CTState) (h2 : 2 ≤ st.config.card) (h1 : 1 ≤ st.subsets.length) :
    PartitionOf st.split.subsets st.config
    ∧ 2 ≤ st.split.subsets.length
    ∧ st.split.config = st.config ∧ st.split.cache = st.cache
    ∧ st.split.links = st.links ∧ st.split.nextConfig = st.nextConfig
    ∧ st.split.i = 0 := by
  have hn2 : 2 ≤ min st.config.card (st.subsets.length * 2) := by
    have : 2 ≤ st.subsets.length * 2 := by omega
    omega
  have hn0 : 0 < min st.config.card (st.subsets.length * 2) := by omega
  have hns : min st.config.card (st.subsets.length * 2) ≤ st.config.card := min_le_left _ _
  have hgo := splitGo_spec (min st.config.card (st.subsets.length * 2)) st.config.card hn0 hns
    (toAsc st.config) (List.replicate (min st.config.card (st.subsets.length * 2)) ∅) 0 0 0
    (by simp)
    (by simpa using toAsc_length st.config)
    (by simp)
    (by omega)
    (toAsc_nodup st.config)
    (by omega)
    (fun k _ => getD_replicate _ k)
    (fun x _ k => by rw [getD_replicate]; exact Finset.not_mem_empty x)
    (fun k1 k2 _ => by rw [getD_replicate, getD_replicate]; exact Finset.disjoint_empty_left _)
  have hsubs : st.split.subsets
      = splitGo (min st.config.card (st.subsets.length * 2)) st.config.card
          (toAsc st.config) (List.replicate (min st.config.card (st.subsets.length * 2)) ∅) 0 0 :=
    rfl
  refine ⟨?_, ?_, rfl, rfl, rfl, rfl, rfl⟩
  · refine ⟨?_, ?_, ?_, ?_⟩
    · intro k hk
      rw [hsubs] at hk ⊢
      exact hgo.2.1 k (by rw [hgo.1] at hk; exact hk)
    · intro k
      rw [hsubs]
      intro x hx
      have hex := (hgo.2.2.1 x).mp ⟨k, hx⟩
      rcases hex with hx2 | ⟨k2, hk2⟩
      · exact (mem_toAsc _ x).mp hx2
      · rw [getD_replicate] at hk2
        exact absurd hk2 (Finset.not_mem_empty x)
    · intro x hx
      rw [hsubs]
      have hex := (hgo.2.2.1 x).mpr (Or.inl ((mem_toAsc _ x).mpr hx))
      obtain ⟨k, hk⟩ := hex
      refine ⟨k, ?_, hk⟩
      by_contra hge
      push_neg at hge
      rw [List.getD_eq_default] at hk
      · exact absurd hk (Finset.not_mem_empty x)
      · exact hge
    · intro k1 k2 hk
      rw [hsubs]
      exact hgo.2.2.2 k1 k2 hk
  · rw [hsubs, hgo.1]
    exact hn2

/-- Any subset of the partition is a strict subset of the configuration
(there are at least two nonempty disjoint subsets). -/
theorem subset_cand_ssubset {subs : List (Finset ℕ)} {cfg : Finset ℕ}
    (P : PartitionOf subs cfg) (h2 : 2 ≤ subs.length) (i : ℕ) (hi : i < subs.length) :
    subs.getD i ∅ ⊂ cfg := by
  have hk : (if i = 0 then 1 else 0) < subs.length := by
    by_cases h : i = 0 <;> simp [h] <;> omega
  have hki : (if i = 0 then 1 else 0) ≠ i := by
    by_cases h : i = 0 <;> simp [h] <;> omega
  obtain ⟨x, hx⟩ := Finset.nonempty_iff_ne_empty.mpr (P.nonemptyAt _ hk)
  rw [Finset.ssubset_iff_of_subset (P.subsetAt i)]
  refine ⟨x, P.subsetAt _ hx, ?_⟩
  intro hxi
  rcases Nat.lt_or_ge (if i = 0 then 1 else 0) i with h | h
  · exact Finset.disjoint_left.mp (P.disjAt _ i h) hx hxi
  · have hlt : i < (if i = 0 then 1 else 0) := by omega
    exact Finset.disjoint_left.mp (P.disjAt i _ hlt) hxi hx

/-- Any complement candidate is a strict subset of the configuration. -/
theorem compl_cand_ssubset {subs : List (Finset ℕ)} {cfg : Finset ℕ}
    (P : PartitionOf subs cfg) (j : ℕ) (hj : j < subs.length) :
    complementOf subs j ⊂ cfg := by
  obtain ⟨x, hx⟩ := Finset.nonempty_iff_ne_empty.mpr (P.nonemptyAt j hj)
  have hsub : complementOf subs j ⊆ cfg := by
    intro y hy
    obtain ⟨k, -, -, hyk⟩ := (mem_complementOf subs j y).mp hy
    exact P.subsetAt k hyk
  rw [Finset.ssubset_iff_of_subset hsub]
  refine ⟨x, P.subsetAt j hx, ?_⟩
  intro hxc
  obtain ⟨k, hk, hkj, hxk⟩ := (mem_complementOf subs j x).mp hxc
  rcases Nat.lt_or_ge k j with h | h
  · exact Finset.disjoint_left.mp (P.disjAt k j h) hxk hx
  · have hlt : j < k := by omega
    exact Finset.disjoint_left.mp (P.disjAt j k hlt) hx hxk

theorem foldl_erase_subset (links : List (ℕ × Finset ℕ)) (elems : List ℕ) :
    ∀ (acc : Finset ℕ × List ℕ),
      (elems.foldl
        (fun acc x =>
          if x ∈ acc.1 ∧ (links.any (fun kv => kv.1 = x)) = true then (acc.1.erase x, x :: acc.2)
          else (acc.1.erase x, acc.2))
        acc).1 ⊆ acc.1 := by
  induction elems with
  | nil => intro acc; exact Finset.Subset.refl _
  | cons e es ih =>
    intro acc
    rw [List.foldl_cons]
    by_cases hc : e ∈ acc.1 ∧ (links.any (fun kv => kv.1 = e)) = true
    · rw [if_pos hc]
      exact (ih _).trans (Finset.erase_subset _ _)
    · rw [if_neg hc]
      exact (ih _).trans (Finset.erase_subset _ _)

theorem unlinkStep_subset (links : List (ℕ × Finset ℕ)) (e : ℕ) (cand : Finset ℕ)
    (work : List ℕ) : (unlinkStep links e cand work).1 ⊆ cand := by
  unfold unlinkStep
  exact foldl_erase_subset links _ (cand, work)

theorem unlinkGo_subset (links : List (ℕ × Finset ℕ)) :
    ∀ (fuel : ℕ) (work : List ℕ) (cand : Finset ℕ),
      unlinkGo links fuel work cand ⊆ cand := by
  intro fuel
  induction fuel with
  | zero =>
    intro work cand
    cases work <;> exact Finset.Subset.refl _
  | succ f ih =>
    intro work cand
    cases work with
    | nil => exact Finset.Subset.refl _
    | cons e es =>
      show unlinkGo links f (unlinkStep links e cand es).2 (unlinkStep links e cand es).1 ⊆ cand
      exact (ih _ _).trans (unlinkStep_subset links e cand es)

theorem unlink_subset (links : List (ℕ × Finset ℕ)) (cand : Finset ℕ) :
    unlink links cand ⊆ cand :=
  unlinkGo_subset links _ _ cand

theorem nextGo_succ (fuel : ℕ) (st : CTState) :
    CTState.nextGo (fuel + 1) st
      = if st.i < 2 * st.subsets.length then
          (if unlink st.links (candAt st) ∈ st.cache then
            CTState.nextGo fuel
              { st with nextConfig := unlink st.links (candAt st), i := st.i + 1 }
          else (true, { st with nextConfig := unlink st.links (candAt st) }))
        else if st.subsets.length < st.config.card then CTState.nextGo fuel st.split
        else (false, st) := rfl

/-- Whenever the `next()` loop reports a candidate, the candidate is not in
the configuration cache and is a strict subset of the (unchanged) current
configuration; the cache and the partition invariant are unchanged too. -/
theorem nextGo_spec : ∀ (fuel : ℕ) (st : CTState),
    2 ≤ st.subsets.length →
    PartitionOf st.subsets st.config →
    2 ≤ st.config.card →
    (CTState.nextGo fuel st).1 = true →
    ((CTState.nextGo fuel st).2.nextConfig ∉ (CTState.nextGo fuel st).2.cache
      ∧ (CTState.nextGo fuel st).2.nextConfig ⊂ (CTState.nextGo fuel st).2.config
      ∧ (CTState.nextGo fuel st).2.config = st.config
      ∧ (CTState.nextGo fuel st).2.cache = st.cache
      ∧ (CTState.nextGo fuel st).2.links = st.links
      ∧ 2 ≤ (CTState.nextGo fuel st).2.subsets.length
      ∧ PartitionOf (CTState.nextGo fuel st).2.subsets (CTState.nextGo fuel st).2.config
      ∧ 2 ≤ (CTState.nextGo fuel st).2.config.card) := by
  intro fuel
  induction fuel with
  | zero =>
    intro st _ _ _ htrue
    exact absurd htrue (by simp [CTState.nextGo])
  | succ f ih =>
    intro st hs2 hP hc2 htrue
    rw [nextGo_succ] at htrue ⊢
    by_cases hi : st.i < 2 * st.subsets.length
    · rw [if_pos hi] at htrue ⊢
      by_cases hcache : unlink st.links (candAt st) ∈ st.cache
      · rw [if_pos hcache] at htrue ⊢
        exact ih _ hs2 hP hc2 htrue
      · rw [if_neg hcache] at htrue ⊢
        refine ⟨hcache, ?_, rfl, rfl, rfl, hs2, hP, hc2⟩
        have hcand : candAt st ⊂ st.config := by
          unfold candAt
          by_cases hin : st.i < st.subsets.length
          · rw [if_pos hin]
            exact subset_cand_ssubset hP hs2 st.i hin
          · rw [if_neg hin]
            exact compl_cand_ssubset hP _ (by omega)
        have hsub : unlink st.links (candAt st) ⊆ st.config :=
          (unlink_subset _ _).trans hcand.subset
        obtain ⟨x, hx1, hx2⟩ := Finset.exists_of_ssubset hcand
        exact (Finset.ssubset_iff_of_subset hsub).mpr
          ⟨x, hx1, fun hxu => hx2 (unlink_subset _ _ hxu)⟩
    · rw [if_neg hi] at htrue ⊢
      by_cases hnc : st.subsets.length < st.config.card
      · rw [if_pos hnc] at htrue ⊢
        obtain ⟨hP', hlen', hcfg, hcache', hlinks', -, -⟩ := split_spec st hc2 (by omega)
        have hP2 : PartitionOf st.split.subsets st.split.config := by
          rw [hcfg]
          exact hP'
        have hc2' : 2 ≤ st.split.config.card := by
          rw [hcfg]
          exact hc2
        have hr := ih st.split hlen' hP2 hc2' htrue
        exact ⟨hr.1, hr.2.1, hr.2.2.1.trans hcfg, hr.2.2.2.1.trans hcache',
          hr.2.2.2.2.1.trans hlinks', hr.2.2.2.2.2.1, hr.2.2.2.2.2.2.1, hr.2.2.2.2.2.2.2⟩
      · rw [if_neg hnc] at htrue
        exact absurd htrue (by simp)

/-- The singleton partition `subsets_ = {config_}` set up by `init` and by a
successful `post`. -/
theorem partition_single (c : Finset ℕ) (hc : c.Nonempty) : PartitionOf [c] c := by
  refine ⟨?_, ?_, ?_, ?_⟩
  · intro k hk
    have hk0 : k = 0 := by simpa using hk
    subst hk0
    exact hc.ne_empty
  · intro k
    cases k with
    | zero => exact Finset.Subset.refl c
    | succ k' =>
      intro x hx
      simp [List.getD] at hx
  · intro x hx
    exact ⟨0, by norm_num, hx⟩
  · intro k1 k2 h12
    obtain ⟨k2', rfl⟩ : ∃ m, k2 = m + 1 := ⟨k2 - 1, by omega⟩
    have h2 : ([c] : List (Finset ℕ)).getD (k2' + 1) ∅ = ∅ := by
      simp [List.getD]
    rw [h2]
    exact Finset.disjoint_empty_right _

/-- A state holding a valid precomputed candidate: the candidate is uncached
and a strict subset of the current configuration, and the partition invariant
holds. -/
def Good (st : CTState) : Prop :=
  st.nextConfig ∉ st.cache ∧ st.nextConfig ⊂ st.config ∧
  2 ≤ st.subsets.length ∧ PartitionOf st.subsets st.config ∧ 2 ≤ st.config.card

theorem next_eq (fuel : ℕ) (st : CTState) :
    CTState.next fuel st
      = if st.config.card < 2 then (false, st)
        else CTState.nextGo fuel (if st.subsets.length < 2 then st.split else st) := rfl

/-- Whenever `next()` reports a candidate, the resulting state is `Good` and
`config_`, `config_cache_` and `links_` are untouched. -/
theorem next_spec (fuel : ℕ) (st : CTState)
    (h1 : 1 ≤ st.subsets.length)
    (hP : 2 ≤ st.config.card → PartitionOf st.subsets st.config)
    (ht : (CTState.next fuel st).1 = true) :
    Good (CTState.next fuel st).2
      ∧ (CTState.next fuel st).2.config = st.config
      ∧ (CTState.next fuel st).2.cache = st.cache
      ∧ (CTState.next fuel st).2.links = st.links := by
  rw [next_eq] at ht ⊢
  by_cases hc : st.config.card < 2
  · rw [if_pos hc] at ht
    exact absurd ht (by simp)
  · rw [if_neg hc] at ht ⊢
    have hc2 : 2 ≤ st.config.card := by omega
    by_cases hs : st.subsets.length < 2
    · rw [if_pos hs] at ht ⊢
      obtain ⟨hP', hlen', hcfg, hcache', hlinks', -, -⟩ := split_spec st hc2 h1
      have hP2 : PartitionOf st.split.subsets st.split.config := by
        rw [hcfg]
        exact hP'
      have hc2' : 2 ≤ st.split.config.card := by
        rw [hcfg]
        exact hc2
      have hr := nextGo_spec fuel st.split hlen' hP2 hc2' ht
      exact ⟨⟨hr.1, hr.2.1, hr.2.2.2.2.2.1, hr.2.2.2.2.2.2.1, hr.2.2.2.2.2.2.2⟩,
        hr.2.2.1.trans hcfg, hr.2.2.2.1.trans hcache', hr.2.2.2.2.1.trans hlinks'⟩
    · rw [if_neg hs] at ht ⊢
      have hs2 : 2 ≤ st.subsets.length := by omega
      have hr := nextGo_spec fuel st hs2 (hP hc2) hc2 ht
      exact ⟨⟨hr.1, hr.2.1, hr.2.2.2.2.2.1, hr.2.2.2.2.2.2.1, hr.2.2.2.2.2.2.2⟩,
        hr.2.2.1, hr.2.2.2.1, hr.2.2.2.2.1⟩

/-- The state update of `post(1)` before the call to `next()`. -/
def CTState.onSuccess (st : CTState) : CTState :=
  { st with
    cache := st.cache.filter (fun c => c.card < st.nextConfig.card),
    config := st.nextConfig,
    subsets := [st.nextConfig] }

/-- The state update of `post(0)` before the call to `next()`. -/
def CTState.onFailure (st : CTState) : CTState :=
  { st with cache := insert st.nextConfig st.cache, i := st.i + 1 }

theorem post_true_eq (fuel : ℕ) (st : CTState) :
    CTState.post fuel st true
      = ((!(CTState.next fuel st.onSuccess).1), (CTState.next fuel st.onSuccess).2) := rfl

theorem post_false_eq (fuel : ℕ) (st : CTState) :
    CTState.post fuel st false
      = ((!(CTState.next fuel st.onFailure).1), (CTState.next fuel st.onFailure).2) := rfl

theorem ctRunGo_cons (fuel : ℕ) (b : Bool) (bs : List Bool) (st : CTState) :
    ctRunGo fuel (b :: bs) st
      = st.nextConfig :: (if (CTState.post fuel st b).1 then []
          else ctRunGo fuel bs (CTState.post fuel st b).2) := rfl

/-- Main invariant of a `ConfigTrimmer` run: starting from a `Good` state
whose cache (together with the configuration-size bound) accounts for every
previously emitted configuration `P`, the run emits no configuration of `P`
and no configuration twice. -/
theorem ctRunGo_spec (fuel : ℕ) : ∀ (bs : List Bool) (st : CTState) (P : Finset (Finset ℕ)),
    Good st →
    (∀ X ∈ P, X ∈ st.cache ∨ st.config.card ≤ X.card) →
    (∀ X ∈ ctRunGo fuel bs st, X ∉ P) ∧ (ctRunGo fuel bs st).Nodup := by
  intro bs
  induction bs with
  | nil =>
    intro st P _ _
    exact ⟨fun X hX => absurd hX (List.not_mem_nil X), List.nodup_nil⟩
  | cons b bs ih =>
    intro st P hG hinv
    rw [ctRunGo_cons]
    have hnotP : st.nextConfig ∉ P := by
      intro hmem
      rcases hinv _ hmem with h | h
      · exact hG.1 h
      · have := Finset.card_lt_card hG.2.1
        omega
    by_cases hdone : (CTState.post fuel st b).1 = true
    · rw [if_pos hdone]
      refine ⟨?_, List.nodup_singleton _⟩
      intro X hX
      rcases List.mem_singleton.mp hX with rfl
      exact hnotP
    · rw [if_neg hdone]
      have hkey : Good (CTState.post fuel st b).2
          ∧ (∀ X ∈ insert st.nextConfig P,
              X ∈ (CTState.post fuel st b).2.cache
                ∨ (CTState.post fuel st b).2.config.card ≤ X.card) := by
        cases b with
        | true =>
          rw [post_true_eq] at hdone ⊢
          have ht : (CTState.next fuel st.onSuccess).1 = true := by
            cases hv : (CTState.next fuel st.onSuccess).1
            · exact absurd (by rw [hv]; rfl) hdone
            · rfl
          have h1' : 1 ≤ st.onSuccess.subsets.length := Nat.le_refl 1
          have hP' : 2 ≤ st.onSuccess.config.card → PartitionOf st.onSuccess.subsets st.onSuccess.config :=
            fun h2 => partition_single st.nextConfig
              (Finset.card_pos.mp (by have h2' : 2 ≤ st.nextConfig.card := h2; omega))
          have hr := next_spec fuel st.onSuccess h1' hP' ht
          refine ⟨hr.1, ?_⟩
          intro X hX
          rcases Finset.mem_insert.mp hX with rfl | hXP
          · right
            rw [hr.2.1]
            exact le_refl st.nextConfig.card
          · rcases hinv X hXP with hXc | hXcard
            · by_cases hlt : X.card < st.nextConfig.card
              · left
                rw [hr.2.2.1]
                exact Finset.mem_filter.mpr ⟨hXc, hlt⟩
              · right
                rw [hr.2.1]
                show st.nextConfig.card ≤ X.card
                omega
            · right
              rw [hr.2.1]
              show st.nextConfig.card ≤ X.card
              have hlt := Finset.card_lt_card hG.2.1
              omega
        | false =>
          rw [post_false_eq] at hdone ⊢
          have ht : (CTState.next fuel st.onFailure).1 = true := by
            cases hv : (CTState.next fuel st.onFailure).1
            · exact absurd (by rw [hv]; rfl) hdone
            · rfl
          have h1' : 1 ≤ st.onFailure.subsets.length := by
            have := hG.2.2.1
            show 1 ≤ st.subsets.length
            omega
          have hP' : 2 ≤ st.onFailure.config.card → PartitionOf st.onFailure.subsets st.onFailure.config :=
            fun _ => hG.2.2.2.1
          have hr := next_spec fuel st.onFailure h1' hP' ht
          refine ⟨hr.1, ?_⟩
          intro X hX
          rcases Finset.mem_insert.mp hX with rfl | hXP
          · left
            rw [hr.2.2.1]
            exact Finset.mem_insert_self _ _
          · rcases hinv X hXP with hXc | hXcard
            · left
              rw [hr.2.2.1]
              exact Finset.mem_insert_of_mem hXc
            · right
              rw [hr.2.1]
              exact hXcard
      obtain ⟨hG', hinv'⟩ := hkey
      have hrec := ih (CTState.post fuel st b).2 (insert st.nextConfig P) hG' hinv'
      constructor
      · intro X hX
        rcases List.mem_cons.mp hX with rfl | hX'
        · exact hnotP
        · exact fun hXP => hrec.1 X hX' (Finset.mem_insert_of_mem hXP)
      · exact List.nodup_cons.mpr
          ⟨fun hmem => hrec.1 _ hmem (Finset.mem_insert_self _ _), hrec.2⟩

theorem ctRun_eq (fuel : ℕ) (config : Finset ℕ) (links : List (ℕ × Finset ℕ))
    (bs : List Bool) :
    ctRun fuel config links bs
      = if (ctInit fuel config links).1 then ctRunGo fuel bs (ctInit fuel config links).2
        else [] := rfl

/-- No configuration is handed out twice by a `ConfigTrimmer` run. -/
theorem ctRun_nodup (fuel : ℕ) (config : Finset ℕ) (links : List (ℕ × Finset ℕ))
    (bs : List Bool) : (ctRun fuel config links bs).Nodup := by
  rw [ctRun_eq]
  by_cases h : (ctInit fuel config links).1 = true
  · rw [if_pos h]
    have h' : (CTState.next fuel ⟨config, links, [config], 0, ∅, ∅⟩).1 = true := h
    have hsp := next_spec fuel ⟨config, links, [config], 0, ∅, ∅⟩ (Nat.le_refl 1)
      (fun h2 => partition_single config
        (Finset.card_pos.mp (by have h2' : 2 ≤ config.card := h2; omega))) h'
    have hrun := ctRunGo_spec fuel bs (CTState.next fuel ⟨config, links, [config], 0, ∅, ∅⟩).2 ∅
      hsp.1 (fun X hX => absurd hX (Finset.not_mem_empty X))
    exact hrun.2
  · rw [if_neg h]
    exact List.nodup_nil

/-- The update `ContentTrimmer::post(success)` applies to `content_cache_`
before delegating: a success evicts every recorded content strictly larger
than the successful one, a failure records the content's hash and size. -/
def updatePend (hf : List ℕ → ℕ) (pend : List (ℕ × ℕ)) (c : List ℕ) (b : Bool) :
    List (ℕ × ℕ) :=
  if b then pend.filter (fun kv => ¬ c.length < kv.2)
  else pend ++ [(hf c, c.length)]

/-- A trace of (content, verdict) pairs respects the content cache: replaying
the cache updates of `post`, each content's hash is absent from the cache at
the moment the content is handed out. -/
def contentFresh (hf : List ℕ → ℕ) : List (ℕ × ℕ) → List (List ℕ × Bool) → Bool
  | _, [] => true
  | pend, (c, b) :: rest =>
    (lookupCC pend (hf c)).isNone && contentFresh hf (updatePend hf pend c b) rest

theorem cwNext_succ (σ : Finset ℕ → List ℕ) (hf : List ℕ → ℕ) (ctfuel fuel : ℕ)
    (st : CWState) :
    cwNext σ hf ctfuel (fuel + 1) st
      = if (lookupCC st.contentCache (hf (σ st.ct.nextConfig))).isSome then
          (if (CTState.post ctfuel st.ct false).1 then
            (false, { st with nextConfig := st.ct.nextConfig,
                              nextContent := σ st.ct.nextConfig,
                              ct := (CTState.post ctfuel st.ct false).2 })
          else cwNext σ hf ctfuel fuel
            { st with nextConfig := st.ct.nextConfig,
                      nextContent := σ st.ct.nextConfig,
                      ct := (CTState.post ctfuel st.ct false).2 })
        else (true, { st with nextConfig := st.ct.nextConfig,
                              nextContent := σ st.ct.nextConfig }) := rfl

/-- When `ContentTrimmer::next()` reports a candidate, the candidate
content's hash misses the (unchanged) content cache. -/
theorem cwNext_fresh (σ : Finset ℕ → List ℕ) (hf : List ℕ → ℕ) (ctfuel : ℕ) :
    ∀ (fuel : ℕ) (st : CWState), (cwNext σ hf ctfuel fuel st).1 = true →
    lookupCC (cwNext σ hf ctfuel fuel st).2.contentCache
        (hf (cwNext σ hf ctfuel fuel st).2.nextContent) = none
      ∧ (cwNext σ hf ctfuel fuel st).2.contentCache = st.contentCache := by
  intro fuel
  induction fuel with
  | zero =>
    intro st ht
    exact absurd ht (by simp [cwNext])
  | succ f ih =>
    intro st ht
    rw [cwNext_succ] at ht ⊢
    by_cases hs : (lookupCC st.contentCache (hf (σ st.ct.nextConfig))).isSome = true
    · rw [if_pos hs] at ht ⊢
      by_cases hd : (CTState.post ctfuel st.ct false).1 = true
      · rw [if_pos hd] at ht
        exact absurd ht (by simp)
      · rw [if_neg hd] at ht ⊢
        exact ih _ ht
    · rw [if_neg hs] at ht ⊢
      refine ⟨?_, rfl⟩
      show lookupCC st.contentCache (hf (σ st.ct.nextConfig)) = none
      cases hval : lookupCC st.contentCache (hf (σ st.ct.nextConfig)) with
      | none => rfl
      | some v => rw [hval] at hs; exact absurd rfl hs

theorem cwPost_true_eq (σ : Finset ℕ → List ℕ) (hf : List ℕ → ℕ) (ctfuel cwfuel : ℕ)
    (st : CWState) :
    cwPost σ hf ctfuel cwfuel st true
      = (if (CTState.post ctfuel st.ct true).1 then
          (true, { st with
            contentCache := st.contentCache.filter (fun kv => ¬ st.nextContent.length < kv.2),
            ct := (CTState.post ctfuel st.ct true).2 })
        else
          ((!(cwNext σ hf ctfuel cwfuel { st with
              contentCache := st.contentCache.filter (fun kv => ¬ st.nextContent.length < kv.2),
              ct := (CTState.post ctfuel st.ct true).2 }).1),
           (cwNext σ hf ctfuel cwfuel { st with
              contentCache := st.contentCache.filter (fun kv => ¬ st.nextContent.length < kv.2),
              ct := (CTState.post ctfuel st.ct true).2 }).2)) := rfl

theorem cwPost_false_eq (σ : Finset ℕ → List ℕ) (hf : List ℕ → ℕ) (ctfuel cwfuel : ℕ)
    (st : CWState) :
    cwPost σ hf ctfuel cwfuel st false
      = (if (CTState.post ctfuel st.ct false).1 then
          (true, { st with
            contentCache := st.contentCache ++ [(hf st.nextContent, st.nextContent.length)],
            ct := (CTState.post ctfuel st.ct false).2 })
        else
          ((!(cwNext σ hf ctfuel cwfuel { st with
              contentCache := st.contentCache ++ [(hf st.nextContent, st.nextContent.length)],
              ct := (CTState.post ctfuel st.ct false).2 }).1),
           (cwNext σ hf ctfuel cwfuel { st with
              contentCache := st.contentCache ++ [(hf st.nextContent, st.nextContent.length)],
              ct := (CTState.post ctfuel st.ct false).2 }).2)) := rfl

/-- If `post` does not report "done", the state it leaves behind has a fresh
pending content, and its content cache is exactly the replayed update of the
old one. -/
theorem cwPost_step (σ : Finset ℕ → List ℕ) (hf : List ℕ → ℕ) (ctfuel cwfuel : ℕ)
    (st : CWState) (b : Bool) (h : ¬ (cwPost σ hf ctfuel cwfuel st b).1 = true) :
    lookupCC (cwPost σ hf ctfuel cwfuel st b).2.contentCache
        (hf (cwPost σ hf ctfuel cwfuel st b).2.nextContent) = none
      ∧ (cwPost σ hf ctfuel cwfuel st b).2.contentCache
          = updatePend hf st.contentCache st.nextContent b := by
  cases b with
  | true =>
    rw [cwPost_true_eq] at h ⊢
    by_cases hctd : (CTState.post ctfuel st.ct true).1 = true
    · rw [if_pos hctd] at h
      exact absurd rfl h
    · rw [if_neg hctd] at h ⊢
      have ht : (cwNext σ hf ctfuel cwfuel { st with
          contentCache := st.contentCache.filter (fun kv => ¬ st.nextContent.length < kv.2),
          ct := (CTState.post ctfuel st.ct true).2 }).1 = true := by
        cases hv : (cwNext σ hf ctfuel cwfuel { st with
            contentCache := st.contentCache.filter (fun kv => ¬ st.nextContent.length < kv.2),
            ct := (CTState.post ctfuel st.ct true).2 }).1
        · exact absurd (by rw [hv]; rfl) h
        · rfl
      have hres := cwNext_fresh σ hf ctfuel cwfuel _ ht
      exact ⟨hres.1, hres.2⟩
  | false =>
    rw [cwPost_false_eq] at h ⊢
    by_cases hctd : (CTState.post ctfuel st.ct false).1 = true
    · rw [if_pos hctd] at h
      exact absurd rfl h
    · rw [if_neg hctd] at h ⊢
      have ht : (cwNext σ hf ctfuel cwfuel { st with
          contentCache := st.contentCache ++ [(hf st.nextContent, st.nextContent.length)],
          ct := (CTState.post ctfuel st.ct false).2 }).1 = true := by
        cases hv : (cwNext σ hf ctfuel cwfuel { st with
            contentCache := st.contentCache ++ [(hf st.nextContent, st.nextContent.length)],
            ct := (CTState.post ctfuel st.ct false).2 }).1
        · exact absurd (by rw [hv]; rfl) h
        · rfl
      have hres := cwNext_fresh σ hf ctfuel cwfuel _ ht
      exact ⟨hres.1, hres.2⟩

/-- The whole emitted trace of a `ContentTrimmer` run respects the content
cache, provided the starting state's pending content does. -/
theorem cwRunGo_fresh (σ : Finset ℕ → List ℕ) (hf : List ℕ → ℕ) (ctfuel cwfuel : ℕ) :
    ∀ (bs : List Bool) (st : CWState),
      lookupCC st.contentCache (hf st.nextContent) = none →
      contentFresh hf st.contentCache (cwRunGo σ hf ctfuel cwfuel bs st) = true := by
  intro bs
  induction bs with
  | nil =>
    intro st _
    rfl
  | cons b bs ih =>
    intro st hfresh
    show ((lookupCC st.contentCache (hf st.nextContent)).isNone
        && contentFresh hf (updatePend hf st.contentCache st.nextContent b)
            (if (cwPost σ hf ctfuel cwfuel st b).1 then []
             else cwRunGo σ hf ctfuel cwfuel bs (cwPost σ hf ctfuel cwfuel st b).2)) = true
    rw [Bool.and_eq_true]
    refine ⟨by rw [hfresh]; rfl, ?_⟩
    by_cases hdone : (cwPost σ hf ctfuel cwfuel st b).1 = true
    · rw [if_pos hdone]
      rfl
    · rw [if_neg hdone]
      obtain ⟨hfr, hcc⟩ := cwPost_step σ hf ctfuel cwfuel st b hdone
      have hgoal := ih (cwPost σ hf ctfuel cwfuel st b).2 hfr
      rw [hcc] at hgoal
      exact hgoal

theorem cwInit_eq (σ : Finset ℕ → List ℕ) (hf : List ℕ → ℕ) (ctfuel cwfuel : ℕ)
    (config : Finset ℕ) (links : List (ℕ × Finset ℕ)) :
    cwInit σ hf ctfuel cwfuel config links
      = if (ctInit ctfuel config links).1 then
          cwNext σ hf ctfuel cwfuel ⟨(ctInit ctfuel config links).2, ∅, [], []⟩
        else (false, ⟨(ctInit ctfuel config links).2, ∅, [], []⟩) := rfl

theorem cwRun_eq (σ : Finset ℕ → List ℕ) (hf : List ℕ → ℕ) (ctfuel cwfuel : ℕ)
    (config : Finset ℕ) (links : List (ℕ × Finset ℕ)) (bs : List Bool) :
    cwRun σ hf ctfuel cwfuel config links bs
      = if (cwInit σ hf ctfuel cwfuel config links).1 then
          cwRunGo σ hf ctfuel cwfuel bs (cwInit σ hf ctfuel cwfuel config links).2
        else [] := rfl

/-- A full `ContentTrimmer` run respects the content cache from an initially
empty cache. -/
theorem cwRun_fresh (σ : Finset ℕ → List ℕ) (hf : List ℕ → ℕ) (ctfuel cwfuel : ℕ)
    (config : Finset ℕ) (links : List (ℕ × Finset ℕ)) (bs : List Bool) :
    contentFresh hf [] (cwRun σ hf ctfuel cwfuel config links bs) = true := by
  rw [cwRun_eq]
  by_cases h : (cwInit σ hf ctfuel cwfuel config links).1 = true
  · rw [if_pos h]
    rw [cwInit_eq] at h ⊢
    by_cases hc : (ctInit ctfuel config links).1 = true
    · rw [if_pos hc] at h ⊢
      have hres := cwNext_fresh σ hf ctfuel cwfuel
        ⟨(ctInit ctfuel config links).2, ∅, [], []⟩ h
      have hgoal := cwRunGo_fresh σ hf ctfuel cwfuel bs
        (cwNext σ hf ctfuel cwfuel ⟨(ctInit ctfuel config links).2, ∅, [], []⟩).2 hres.1
      rw [hres.2] at hgoal
      exact hgoal
    · rw [if_neg hc] at h
      exact absurd h (by simp)
  · rw [if_neg h]
    rfl

/-- A serializer witnessing that trimming a configuration can reproduce an
earlier serialized content: `{1, 2}` and `{3}` serialize identically. -/
def cexσ (s : Finset ℕ) : List ℕ :=
  if s = {1, 2} then [0, 0, 0]
  else if s = {3, 4} then [1]
  else if s = {3} then [0, 0, 0]
  else [9]

/-- An injective-enough hasher for the counterexample contents. -/
def cexhf (l : List ℕ) : ℕ := l.length + l.sum

/-- Counterexample to the content half of the original claim: with the
serializer `cexσ` on configuration `{1, 2, 3, 4}` and oracle verdicts
(fail, succeed, fail), the `ContentTrimmer` hands out the serialized content
`[0, 0, 0]` twice — the success on `[1]` (size 1) evicts the cached failed
content `[0, 0, 0]` (size 3) from the content cache, and a success never
records its own content. -/
theorem content_trimmer_repeats_content :
    ((cwRun cexσ cexhf 20 20 {1, 2, 3, 4} [] [false, true, false]).map Prod.fst
        = [[0, 0, 0], [1], [0, 0, 0]])
      ∧ ¬ ((cwRun cexσ cexhf 20 20 {1, 2, 3, 4} [] [false, true, false]).map
            Prod.fst).Nodup := by
  constructor
  · decide
  · decide

/-- **C4** (corrected).  Over any run of the trimmer protocol, the
`ConfigTrimmer` never hands out the same configuration twice; and every
content handed out by the `ContentTrimmer` is fresh with respect to the
replayed content cache: its hash is absent from the cache at hand-out time,
where the cache records each failed content and a success evicts every
entry of size strictly greater than the successful content's size.  (The
original claim — no serialized content is ever handed out twice — fails:
a success does not record its own content and evicts larger failed entries,
so an evicted content can be handed out again; see the counterexample.) -/
theorem trimmer_caching (ctfuel cwfuel : ℕ) (config : Finset ℕ)
    (links : List (ℕ × Finset ℕ)) (bs : List Bool)
    (σ : Finset ℕ → List ℕ) (hf : List ℕ → ℕ) :
    (ctRun ctfuel config links bs).Nodup
      ∧ contentFresh hf [] (cwRun σ hf ctfuel cwfuel config links bs) = true :=
  ⟨ctRun_nodup ctfuel config links bs, cwRun_fresh σ hf ctfuel cwfuel config links bs⟩

end Trim

end Grammarinator
